import Mathlib

/-!
# Verification of the Nexus student-management algorithm suite

Shallow embedding of the repository's algorithm modules
(`searchAlgorithms.ts`, `sortingAlgorithms.ts`, `analyticsAlgorithms.ts`,
`predictionAlgorithms.ts`) and proofs about them.

Modelling conventions, used throughout:

* JavaScript numbers are modelled as rationals (`ℚ`); integer-valued data as
  `ℤ`/`ℕ`.  Places where IEEE-754 special values (`NaN`, `±Infinity`) are
  observable are modelled explicitly with the `JSNum` type below.
* JavaScript division by zero yields `±Infinity`/`NaN`; Lean's `ℚ` division
  by zero yields `0`.  Wherever a division can actually receive a zero
  divisor, the embedding either models it with `JSNum` or the spot is
  documented at the definition.
* A JavaScript `Map` is modelled as an insertion-ordered association list
  (`alSet`/`alGet` below); `Map` iteration order is insertion order.
* Mutable arrays are modelled by explicit state passing over `List`;
  an in-place write `arr[i] = v` becomes `arr.set i v`.  Reads `arr[i]`
  become `arr.getD i d` with an irrelevant default (the algorithms only read
  in bounds; out-of-bounds spots inherited from the source are documented).
* Class methods of `AdvancedSortingEngine`, `AdvancedSearchEngine`,
  `AdvancedAnalyticsEngine` and `PredictionEngine` live in namespaces of the
  same names.
-/

namespace Nexus

/-- Insertion-ordered association list modelling a JavaScript `Map`:
`alSet` updates an existing key in place, otherwise appends the new entry
(JS `Map.prototype.set` keeps the original insertion position of a key). -/
def alSet {κ α : Type} [DecidableEq κ] : List (κ × α) → κ → α → List (κ × α)
  | [], k, v => [(k, v)]
  | (k', v') :: rest, k, v =>
    if k' = k then (k, v) :: rest else (k', v') :: alSet rest k v

/-- `Map.prototype.get`: the value stored at `k`, or `none` (JS `undefined`). -/
def alGet {κ α : Type} [DecidableEq κ] (m : List (κ × α)) (k : κ) : Option α :=
  (m.find? (fun e => e.1 == k)).map (·.2)

/-! ## Sorting engine: topological sort (`sortingAlgorithms.ts`) -/

/-- `Course` interface of `sortingAlgorithms.ts` (`prerequisites?: string[]`
is an optional field, hence `Option`; `course.prerequisites || []` in the
source becomes `.getD []`). -/
structure Course where
  id : String
  name : String
  prerequisites : Option (List String)
deriving DecidableEq

namespace AdvancedSortingEngine

/-- The body of Kahn's `while (queue.length > 0)` loop in `topologicalSort`.
`fuel` bounds the number of iterations; the top-level call passes strictly
more fuel than the loop can iterate (each key is enqueued at most once, and
the passed fuel exceeds the number of distinct keys).  The pushed element is
`courses.find(c => c.id === currentId)!`, which is `undefined` (here:
`none`) when an id in the in-degree map is not a course id — hence the
result is a list of `Option Course`. -/
def kahnLoop (courses : List Course) (graph : List (String × List String)) :
    ℕ → List String → List (String × ℤ) → List (Option Course) → List (Option Course)
  | 0, _, _, result => result
  | _ + 1, [], _, result => result
  | fuel + 1, currentId :: queue, inDegree, result =>
    let currentCourse := courses.find? (fun c => c.id == currentId)
    let result' := result ++ [currentCourse]
    let neighbors := (alGet graph currentId).getD []
    let st := neighbors.foldl
      (fun (st : List (String × ℤ) × List String) neighbor =>
        let deg : ℤ := (alGet st.1 neighbor).getD 0
        let inD := alSet st.1 neighbor (deg - 1)
        if deg - 1 = 0 then (inD, st.2 ++ [neighbor]) else (inD, st.2))
      (inDegree, queue)
    kahnLoop courses graph fuel st.2 st.1 result'

/-- `topologicalSort` (Kahn's algorithm).  Builds the adjacency map
(course → its prerequisite list), the in-degree map (counting, for each id,
how many courses list it as a prerequisite; ids that are not course ids are
appended to the map by `inDegree.set(prereq, (inDegree.get(prereq) || 0)+1)`),
enqueues all zero-in-degree keys in map insertion order, then runs the
dequeue loop.  Nodes on a cycle never reach in-degree 0 and are silently
left out of the result; the function has no failure channel. -/
def topologicalSort (courses : List Course) : List (Option Course) :=
  let graph := courses.foldl (fun g c => alSet g c.id (c.prerequisites.getD [])) []
  let inDegree0 : List (String × ℤ) := courses.foldl (fun m c => alSet m c.id 0) []
  let inDegree := courses.foldl (fun m c =>
    (c.prerequisites.getD []).foldl (fun m' prereq =>
      alSet m' prereq ((alGet m' prereq).getD 0 + 1)) m) inDegree0
  let queue := (inDegree.filter (fun e => e.2 == 0)).map (·.1)
  let fuel := inDegree.length +
    courses.foldl (fun n c => n + (c.prerequisites.getD []).length) 0 + 1
  kahnLoop courses graph fuel queue inDegree []

/-! ### Comparator-driven sorts

A JS comparator returns a number: `cmp : T → T → ℚ`.  The mutable array is a
`List T` threaded through the loops; reads use `getD` with the `Inhabited`
default (all reads performed by the algorithms are in bounds). -/

/-- `[arr[i], arr[j]] = [arr[j], arr[i]]`. -/
def swapL {T : Type} [Inhabited T] (arr : List T) (i j : ℕ) : List T :=
  let a := arr.getD i default
  let b := arr.getD j default
  (arr.set i b).set j a

/-- Inner `while (j >= low && compareFn(arr[j], key) > 0)` loop of
`insertionSort`: shift `arr[j]` to `arr[j+1]` and decrement `j`, then write
the key at `arr[j+1]`.  The JS index `j` is represented as `jp = j + 1 : ℕ`
(so the loop guard `j ≥ low` is `low < jp`, and writes target `arr[jp]`). -/
def insInner {T : Type} [Inhabited T] (cmp : T → T → ℚ) (key : T) (low : ℕ)
    (arr : List T) (jp : ℕ) : List T :=
  if h : low < jp ∧ 0 < cmp (arr.getD (jp - 1) default) key then
    insInner cmp key low (arr.set jp (arr.getD (jp - 1) default)) (jp - 1)
  else arr.set jp key
termination_by jp
decreasing_by omega

/-- Outer `for (i = low + 1; i <= high; i++)` loop of `insertionSort`. -/
def insOuter {T : Type} [Inhabited T] (cmp : T → T → ℚ) (low high : ℕ)
    (arr : List T) (i : ℕ) : List T :=
  if _ : i ≤ high then
    insOuter cmp low high (insInner cmp (arr.getD i default) low arr i) (i + 1)
  else arr
termination_by high + 1 - i
decreasing_by omega

/-- `insertionSort(arr, low, high, compareFn)`: in-place insertion sort of
the segment `[low, high]`. -/
def insertionSort {T : Type} [Inhabited T] (cmp : T → T → ℚ) (arr : List T)
    (low high : ℕ) : List T :=
  insOuter cmp low high arr (low + 1)

/-- The `for (j = low; j < high; j++)` loop of `partition` (Lomuto scheme).
The JS index `i` (initialised to `low - 1`) is represented as
`ip = i + 1 : ℕ`: on `compareFn(arr[j], pivot) <= 0` the source does `i++`
then swaps `arr[i]` with `arr[j]`, i.e. swaps at `ip`/`j` and then
increments `ip`. -/
def partitionLoop {T : Type} [Inhabited T] (cmp : T → T → ℚ) (pivot : T)
    (high : ℕ) (arr : List T) (ip j : ℕ) : List T × ℕ :=
  if _ : j < high then
    if cmp (arr.getD j default) pivot ≤ 0 then
      partitionLoop cmp pivot high (swapL arr ip j) (ip + 1) (j + 1)
    else
      partitionLoop cmp pivot high arr ip (j + 1)
  else (arr, ip)
termination_by high - j
decreasing_by all_goals omega

/-- `partition`: median-of-three pivot selection (three conditional swaps
putting the median at `mid`), pivot saved and moved to `high`, Lomuto scan,
final swap of `arr[i+1]` with `arr[high]`; returns the new array and the
pivot position `i + 1` (`= ip`). -/
def partition {T : Type} [Inhabited T] (cmp : T → T → ℚ) (arr : List T)
    (low high : ℕ) : List T × ℕ :=
  let mid := (low + high) / 2
  let arr1 := if cmp (arr.getD mid default) (arr.getD low default) < 0 then
      swapL arr low mid else arr
  let arr2 := if cmp (arr1.getD high default) (arr1.getD low default) < 0 then
      swapL arr1 low high else arr1
  let arr3 := if cmp (arr2.getD high default) (arr2.getD mid default) < 0 then
      swapL arr2 mid high else arr2
  let pivot := arr3.getD mid default
  let arr4 := swapL arr3 mid high
  let st := partitionLoop cmp pivot high arr4 low low
  (swapL st.1 st.2 high, st.2)

/-- The median-of-three stage of `partition` in isolation: the three
conditional swaps.  `partition_eq_core` below shows `partition` is
definitionally this stage followed by `partitionCore`. -/
def medianArrange {T : Type} [Inhabited T] (cmp : T → T → ℚ) (arr : List T)
    (low high mid : ℕ) : List T :=
  let arr1 := if cmp (arr.getD mid default) (arr.getD low default) < 0 then
      swapL arr low mid else arr
  let arr2 := if cmp (arr1.getD high default) (arr1.getD low default) < 0 then
      swapL arr1 low high else arr1
  if cmp (arr2.getD high default) (arr2.getD mid default) < 0 then
    swapL arr2 mid high else arr2

/-- The pivot-move / Lomuto-scan / final-swap stage of `partition`. -/
def partitionCore {T : Type} [Inhabited T] (cmp : T → T → ℚ) (arrm : List T)
    (low high mid : ℕ) : List T × ℕ :=
  let pivot := arrm.getD mid default
  let arr4 := swapL arrm mid high
  let st := partitionLoop cmp pivot high arr4 low low
  (swapL st.1 st.2 high, st.2)

/-- The property of an array state that the segment operations of
`partition` preserve: same length, same multiset of elements, and the parts
outside `[low, high]` untouched. -/
def sameOutside {T : Type} (low high : ℕ) (x arr : List T) : Prop :=
  x.length = arr.length ∧ x.Perm arr ∧ x.take low = arr.take low ∧
    x.drop (high + 1) = arr.drop (high + 1)

/-- `quickSortHybrid`: recursion of the hybrid quicksort.  `fuel` bounds the
recursion depth; the top-level call passes `arr.length`, which we prove
sufficient (every recursive call strictly shrinks the segment, and the
fuel-exhausted branch is never reached when `fuel ≥ high + 1 - low`). -/
def quickSortHybrid {T : Type} [Inhabited T] (cmp : T → T → ℚ) (threshold : ℕ) :
    ℕ → List T → ℕ → ℕ → List T
  | 0, arr, _, _ => arr
  | fuel + 1, arr, low, high =>
    if low < high then
      if high - low + 1 < threshold then insertionSort cmp arr low high
      else
        let st := partition cmp arr low high
        let arrL := quickSortHybrid cmp threshold fuel st.1 low (st.2 - 1)
        quickSortHybrid cmp threshold fuel arrL (st.2 + 1) high
    else arr

/-- `hybridQuickSort(arr, compareFn, threshold = 10)`: copies the input
(`[...arr]`) and sorts the copy in place over the range `[0, length − 1]`. -/
def hybridQuickSort {T : Type} [Inhabited T] (cmp : T → T → ℚ) (threshold : ℕ)
    (arr : List T) : List T :=
  quickSortHybrid cmp threshold arr.length arr 0 (arr.length - 1)

/-- The `for (i = 0; i < n; i += minMerge)` run phase of `timSort`
(`minMerge = 32`): insertion sort of each block `[i, min(i+31, n−1)]`. -/
def timRuns {T : Type} [Inhabited T] (cmp : T → T → ℚ) (n : ℕ)
    (arr : List T) (i : ℕ) : List T :=
  if _ : i < n then
    timRuns cmp n (insertionSort cmp arr i (min (i + 31) (n - 1))) (i + 32)
  else arr
termination_by n - i
decreasing_by omega

/-- The write-back loop of `merge`: `leftArr`/`rightArr` are the saved
slices, `i`/`j` the read cursors, `k` the write cursor into `arr`.  Covers
all three `while` loops of the source (the two drain loops are the cases
where one cursor is exhausted). -/
def mergeInto {T : Type} [Inhabited T] (cmp : T → T → ℚ) (L R : List T)
    (arr : List T) (i j k : ℕ) : List T :=
  if _ : i < L.length then
    if j < R.length then
      if cmp (L.getD i default) (R.getD j default) ≤ 0 then
        mergeInto cmp L R (arr.set k (L.getD i default)) (i + 1) j (k + 1)
      else
        mergeInto cmp L R (arr.set k (R.getD j default)) i (j + 1) (k + 1)
    else mergeInto cmp L R (arr.set k (L.getD i default)) (i + 1) j (k + 1)
  else if _ : j < R.length then
    mergeInto cmp L R (arr.set k (R.getD j default)) i (j + 1) (k + 1)
  else arr
termination_by L.length - i + (R.length - j)
decreasing_by all_goals omega

/-- `merge(arr, left, mid, right)`: saves `arr.slice(left, mid+1)` and
`arr.slice(mid+1, right+1)` and merges them back into `arr` from
position `left`. -/
def merge {T : Type} [Inhabited T] (cmp : T → T → ℚ) (arr : List T)
    (left mid right : ℕ) : List T :=
  let leftArr := (arr.drop left).take (mid + 1 - left)
  let rightArr := (arr.drop (mid + 1)).take (right - mid)
  mergeInto cmp leftArr rightArr arr 0 0 left

/-- The `for (start = 0; start < n; start += size * 2)` loop of `timSort`'s
merge phase.  `fuel` bounds the iterations (for `size ≥ 1` each iteration
advances `start` by at least 2, so `n + 1` iterations suffice; the source
is only called with `size ≥ 32`). -/
def timMergePass {T : Type} [Inhabited T] (cmp : T → T → ℚ) (n size : ℕ) :
    ℕ → List T → ℕ → List T
  | 0, arr, _ => arr
  | fuel + 1, arr, start =>
    if start < n then
      let mid := start + size - 1
      let endIdx := min (start + size * 2 - 1) (n - 1)
      let arr' := if mid < endIdx then merge cmp arr start mid endIdx else arr
      timMergePass cmp n size fuel arr' (start + size * 2)
    else arr

/-- The `for (size = minMerge; size < n; size *= 2)` loop of `timSort`.
`fuel` bounds the doublings (`n + 1` always suffices since `size ≥ 32`
doubles each round). -/
def timMergeAll {T : Type} [Inhabited T] (cmp : T → T → ℚ) (n : ℕ) :
    ℕ → List T → ℕ → List T
  | 0, arr, _ => arr
  | fuel + 1, arr, size =>
    if size < n then
      timMergeAll cmp n fuel (timMergePass cmp n size (n + 1) arr 0) (size * 2)
    else arr

/-- `timSort(arr, compareFn)`: copy the input, insertion-sort runs of 32,
then bottom-up merge passes with doubling width. -/
def timSort {T : Type} [Inhabited T] (cmp : T → T → ℚ) (arr : List T) : List T :=
  let n := arr.length
  timMergeAll cmp n (n + 1) (timRuns cmp n arr 0) 32

/-! ### Functional (list-level) counterparts used to state and prove the
segment bridges.  `insFromRight` is the effect of one inner insertion loop:
the key is inserted into the prefix from the right, skipping over exactly
the elements that compare strictly greater. -/

/-- Helper of `insFromRight`, operating on the reversed prefix. -/
def insFromRightRev {T : Type} (cmp : T → T → ℚ) (k : T) : List T → List T
  | [] => [k]
  | z :: rest => if 0 < cmp z k then z :: insFromRightRev cmp k rest else k :: z :: rest

/-- Insert `k` into `ys` from the right: shift over the maximal suffix of
elements `z` with `cmp z k > 0`, place `k` before it. -/
def insFromRight {T : Type} (cmp : T → T → ℚ) (ys : List T) (k : T) : List T :=
  (insFromRightRev cmp k ys.reverse).reverse

/-- Fold of `insFromRight` over the remaining keys (the outer insertion
loop at the list level). -/
def insFoldL {T : Type} (cmp : T → T → ℚ) : List T → List T → List T
  | acc, [] => acc
  | acc, k :: M => insFoldL cmp (insFromRight cmp acc k) M

/-- List-level insertion sort matching `insertionSort` on a segment. -/
def insertionSortL {T : Type} (cmp : T → T → ℚ) : List T → List T
  | [] => []
  | s :: rest => insFoldL cmp [s] rest

/-- List-level stable merge matching `mergeInto` (left element taken on
`cmp a b ≤ 0`). -/
def mergeL {T : Type} (cmp : T → T → ℚ) : List T → List T → List T
  | [], R => R
  | L, [] => L
  | a :: L, b :: R =>
    if cmp a b ≤ 0 then a :: mergeL cmp L (b :: R) else b :: mergeL cmp (a :: L) R
termination_by L R => L.length + R.length

/-- List-level run phase: insertion-sort each chunk of 32.  (The `xs.drop 31`
in the recursive call is `(x :: xs).drop 32`, written so the recursion is
structural.) -/
def chunkSort {T : Type} (cmp : T → T → ℚ) : List T → List T
  | [] => []
  | x :: xs => insertionSortL cmp ((x :: xs).take 32) ++ chunkSort cmp (xs.drop 31)
termination_by l => l.length
decreasing_by simp [List.length_drop]; omega

/-- List-level merge pass with width `size`: each chunk of `2·size` has its
two halves merged (a chunk no longer than `size` is left alone, matching the
source's `if (mid < end)` guard). -/
def mergePassL {T : Type} (cmp : T → T → ℚ) (size : ℕ) : List T → List T
  | [] => []
  | x :: xs =>
    let C := (x :: xs).take (2 * size)
    (if size < C.length then mergeL cmp (C.take size) (C.drop size) else C) ++
      mergePassL cmp size (xs.drop (2 * size - 1))
termination_by l => l.length
decreasing_by simp [List.length_drop]; omega

/-- `cmp a b ≤ 0`: the "not after" relation induced by a comparator. -/
def cle {T : Type} (cmp : T → T → ℚ) (a b : T) : Prop := cmp a b ≤ 0

/-- Comparator consistency: totality of `cle`. -/
def CmpTotal {T : Type} (cmp : T → T → ℚ) : Prop := ∀ a b, cle cmp a b ∨ cle cmp b a

/-- Comparator consistency: transitivity of `cle`. -/
def CmpTrans {T : Type} (cmp : T → T → ℚ) : Prop :=
  ∀ a b c, cle cmp a b → cle cmp b c → cle cmp a c

/-- Every aligned chunk of width `s` is sorted — the invariant of the
bottom-up merge phase of `timSort`. -/
def ChunksSorted {T : Type} (cmp : T → T → ℚ) (s : ℕ) (l : List T) : Prop :=
  ∀ m : ℕ, List.Pairwise (cle cmp) ((l.drop (m * s)).take s)

/-- Comparator used against the unrestricted stability claim: every pair
compares equal (`0`) except `cmpStab 0 100 = 1`.  It is well-typed for the
source (any `number`-returning comparator is admissible) but inconsistent:
`0` and `100` compare equal through `1`, yet directly as `1`. -/
def cmpStab (u v : ℕ) : ℚ := if u = 0 ∧ v = 100 then 1 else 0

/-- 34-element input exercising `timSort`'s merge phase: one full insertion
run of 32 elements followed by the two-element run `[100, 101]`. -/
def lStab : List ℕ :=
  [0, 1, 2, 3, 4, 5, 6, 7, 8, 9, 10, 11, 12, 13, 14, 15,
   16, 17, 18, 19, 20, 21, 22, 23, 24, 25, 26, 27, 28, 29, 30, 31, 100, 101]

/-! ### `radixSort` / `countingSort`

JS numbers that are integers are modelled as `ℤ`.  `Math.max(...result)`
on a non-empty list is the fold of `max` over it (the empty case, which JS
maps to `-Infinity`, is unreachable: the caller returns early on
`length ≤ 1`). -/

def maxOfZ : List ℤ → ℤ
  | [] => 0
  | x :: xs => xs.foldl max x

/-- `Math.floor(x / exp) % 10`: for `exp` a positive power of ten,
`Math.floor` of the JS division is flooring integer division (`Int.fdiv`),
and JS `%` is the truncating remainder (`Int.tmod`).  The `.toNat` casts
the digit to an index; it is faithful for digits in `[0, 9]`, i.e. for the
non-negative inputs the routine is specified on (for a negative input the
source reads `count[-1]`, which is `undefined` — see the C8 theorem, whose
inputs never reach `countingSort` at all). -/
def digitOf (x exp : ℤ) : ℕ := (Int.tmod (Int.fdiv x exp) 10).toNat

/-- `countingSort(arr, exp)`: count digit occurrences, prefix-sum the
counts, then place elements from the right into `output` and copy back.
`output = new Array(n)` is a list of `n` empty slots (`Option`); every slot
is filled when the digits lie in `[0, 9]`. -/
def countingSortZ (arr : List ℤ) (exp : ℤ) : List ℤ :=
  let count0 := arr.foldl
    (fun cnt x => cnt.set (digitOf x exp) (cnt.getD (digitOf x exp) 0 + 1))
    (List.replicate 10 (0 : ℤ))
  let count := (List.range 9).foldl
    (fun c i => c.set (i + 1) (c.getD (i + 1) 0 + c.getD i 0)) count0
  let placed := arr.foldr
    (fun x st =>
      (st.1.set ((st.2.getD (digitOf x exp) 0 - 1).toNat) (some x),
       st.2.set (digitOf x exp) (st.2.getD (digitOf x exp) 0 - 1)))
    (List.replicate arr.length (none : Option ℤ), count)
  placed.1.map (fun o => o.getD 0)

/-- `for (let exp = 1; Math.floor(max / exp) > 0; exp *= 10)`.  The fuel
`max.toNat + 1` always suffices: for `max ≤ 0` the guard fails at once, and
for `max ≥ 1` the guard fails as soon as `exp = 10^k > max`, which happens
within `max` doublings-by-ten since `10^k ≥ k + 1`. -/
def radixLoop : ℕ → ℤ → List ℤ → ℤ → List ℤ
  | 0, _, result, _ => result
  | fuel + 1, mx, result, exp =>
    if 0 < Int.fdiv mx exp then radixLoop fuel mx (countingSortZ result exp) (exp * 10)
    else result

/-- `radixSort(arr)`: early `[...arr]` return on `length ≤ 1`, otherwise
LSD counting-sort passes on a copy.  Note the source has **no** guard
against negative numbers. -/
def radixSort (arr : List ℤ) : List ℤ :=
  if arr.length ≤ 1 then arr
  else radixLoop ((maxOfZ arr).toNat + 1) (maxOfZ arr) arr 1

/-! ### `bucketSort` -/

def minOfQ : List ℚ → ℚ
  | [] => 0
  | x :: xs => xs.foldl min x

def maxOfQ : List ℚ → ℚ
  | [] => 0
  | x :: xs => xs.foldl max x

/-- The bucket index
`Math.min(Math.floor((grade - min) / bucketSize), bucketCount - 1)` with
IEEE-754 semantics at `bucketSize = 0` (which happens exactly when all
grades are equal): `0/0` is `NaN`, so `buckets[NaN]` is `undefined` and the
`push` throws (`none` here); `x/0` for `x > 0` is `+Infinity`, clamped by
the outer `min` to `bucketCount - 1`.  In the normal case `grade ≥ min` and
`bucketSize > 0`, so the floor is a non-negative integer and `.toNat` is
exact. -/
def jsBucketIndex (grade mn bucketSize : ℚ) (bucketCount : ℕ) : Option ℕ :=
  if bucketSize = 0 then
    if grade - mn = 0 then none
    else some (bucketCount - 1)
  else some (min (Int.floor ((grade - mn) / bucketSize)).toNat (bucketCount - 1))

def bucketPush (buckets : List (List ℚ)) (i : ℕ) (g : ℚ) : List (List ℚ) :=
  buckets.set i (buckets.getD i [] ++ [g])

/-- The `grades.forEach` distribution loop; `none` models the thrown
`TypeError`. -/
def distributeGrades (mn bucketSize : ℚ) (bucketCount : ℕ) :
    List ℚ → List (List ℚ) → Option (List (List ℚ))
  | [], buckets => some buckets
  | g :: gs, buckets =>
    match jsBucketIndex g mn bucketSize bucketCount with
    | none => none
    | some i => distributeGrades mn bucketSize bucketCount gs (bucketPush buckets i g)

/-- `bucketSort(grades, bucketCount = 10)`: early copy on `length ≤ 1`,
else distribute into `bucketCount` buckets, sort each bucket with
`(a, b) => a - b` (JS `Array.prototype.sort` is stable, modelled by
`mergeSort` taking left on `a - b ≤ 0`), and concatenate.  The source's
`if (bucket.length > 0)` merely skips empty pushes, which appending the
empty list reproduces.  The `Except.error` case is the `TypeError` thrown
by `buckets[NaN].push` when the bucket index is `NaN`.  (Modelled for
`bucketCount ≥ 1`; the source default is `10`.) -/
def bucketSort (grades : List ℚ) (bucketCount : ℕ) : Except String (List ℚ) :=
  if grades.length ≤ 1 then .ok grades
  else
    let mn := minOfQ grades
    let mx := maxOfQ grades
    let bucketSize := (mx - mn) / (bucketCount : ℚ)
    match distributeGrades mn bucketSize bucketCount grades
        (List.replicate bucketCount []) with
    | none => .error "TypeError: buckets[NaN] is undefined"
    | some buckets =>
      .ok (buckets.foldl (fun result b =>
        result ++ b.mergeSort (fun a b => decide (a - b ≤ 0))) [])

end AdvancedSortingEngine

/-! ## Search engine: Boyer–Moore (`searchAlgorithms.ts`) -/

namespace AdvancedSearchEngine

/-- `buildBadCharTable`: last (rightmost) occurrence index of each pattern
character, built left to right so that later writes win. -/
def buildBadCharTable (pattern : List Char) : List (Char × ℕ) :=
  (List.range pattern.length).foldl (fun t i => alSet t (pattern.getD i ' ') i) []

/-- The inner comparison loop of `boyerMooreSearch`
(`while (j >= 0 && pattern[j] === text[shift+j]) j--`).  The JS index `j`
is represented as `jp = j + 1 : ℕ` so that the exit value `j = −1` (full
match) is `jp = 0`. -/
def bmScan (text pattern : List Char) (shift : ℕ) : ℕ → ℕ
  | 0 => 0
  | jp + 1 =>
    if pattern.getD jp ' ' == text.getD (shift + jp) ' ' then
      bmScan text pattern shift jp
    else jp + 1

/-- The outer `while (shift <= text.length - pattern.length)` loop of
`boyerMooreSearch`.  `fuel` bounds the iterations; for a non-empty pattern
every iteration increases `shift` by at least 1, so `text.length + 2`
iterations always suffice (for the empty pattern the source loops forever
whenever `text` is non-empty; fuel exhaustion models that divergence).

The two shift computations mirror the JavaScript `||` semantics exactly:

* after a full match, `pattern.length - badCharTable.get(c) || pattern.length`
  — when `get(c)` is `undefined` the subtraction is `NaN` (falsy), and when
  the difference is `0` it is falsy too, so both fall back to
  `pattern.length`;
* on a mismatch, `badCharTable.get(text[shift+j]) || -1` — both `undefined`
  **and the value `0`** (falsy!) are replaced by `-1`. -/
def bmLoop (text pattern : List Char) : ℕ → ℕ → List ℕ → List ℕ
  | 0, _, positions => positions
  | fuel + 1, shift, positions =>
    if (shift : ℤ) ≤ (text.length : ℤ) - (pattern.length : ℤ) then
      let jp := bmScan text pattern shift pattern.length
      if jp = 0 then
        let positions' := positions ++ [shift]
        let inc : ℕ :=
          if shift + pattern.length < text.length then
            match alGet (buildBadCharTable pattern)
                (text.getD (shift + pattern.length) ' ') with
            | none => pattern.length
            | some k =>
              let v : ℤ := (pattern.length : ℤ) - (k : ℤ)
              (if v = 0 then (pattern.length : ℤ) else v).toNat
          else 1
        bmLoop text pattern fuel (shift + inc) positions'
      else
        let j := jp - 1
        let last : ℤ :=
          match alGet (buildBadCharTable pattern) (text.getD (shift + j) ' ') with
          | none => -1
          | some k => if k = 0 then -1 else (k : ℤ)
        let inc : ℤ := max 1 ((j : ℤ) - last)
        bmLoop text pattern fuel (shift + inc.toNat) positions
    else positions

/-- `boyerMooreSearch(text, pattern)`: all positions the scan reports. -/
def boyerMooreSearch (text pattern : List Char) : List ℕ :=
  bmLoop text pattern (text.length + 2) 0 []

/-! ### Fuzzy search (`levenshteinDistance`, `fuzzySearch`) -/

/-- `.toLowerCase()` on a JS string: lower-case each character. -/
def lowerStr (s : String) : String := ⟨s.data.map Char.toLower⟩

/-- One step of the inner `for i` loop of `levenshteinDistance`: given the
tail `pPrev :: pRest` of the previous row starting at column `i - 1`
(entries `matrix[j-1][i-1], matrix[j-1][i], …`) and the entry
`left = matrix[j][i-1]` just computed, produce the current row's entries
`matrix[j][i], matrix[j][i+1], …` — each is
`min(left + 1, up + 1, diag + indicator)` with `indicator = 0` iff
`str1[i-1] === str2[j-1]`. -/
def levGo (c2 : Char) : List Char → List ℕ → ℕ → List ℕ
  | [], _, _ => []
  | _ :: _, [], _ => []
  | c1 :: cs, pPrev :: pRest, left =>
    let cur := min (left + 1) (min (pRest.headD 0 + 1)
      (pPrev + (if c1 = c2 then 0 else 1)))
    cur :: levGo c2 cs pRest cur

/-- The outer `for j` loop of `levenshteinDistance`: `prev` is row `j - 1`
(length `str1.length + 1`), and row `j` is seeded with
`matrix[j][0] = j`. -/
def levRows (s1 : List Char) : List Char → List ℕ → ℕ → List ℕ
  | [], prev, _ => prev
  | c2 :: cs2, prev, j => levRows s1 cs2 ((j + 1) :: levGo c2 s1 prev (j + 1)) (j + 1)

/-- `levenshteinDistance(str1, str2)`: the dynamic program over the
`(str2.length + 1) × (str1.length + 1)` matrix, row `0` initialized to
`0, 1, …, str1.length`, returning `matrix[str2.length][str1.length]`. -/
def levenshteinDistance (str1 str2 : String) : ℕ :=
  (levRows str1.data str2.data (List.range (str1.length + 1)) 0).getD str1.length 0

/-- The four fields of a `Student` record that `fuzzySearch` reads (plus
the `id`, so that distinct records with identical searchable fields
exist, as they do for the full source interface). -/
structure Student where
  id : String
  firstName : String
  lastName : String
  email : String
  rollNo : String
deriving DecidableEq

/-- `searchableText` of a student:
`` `${firstName} ${lastName} ${email} ${rollNo}`.toLowerCase() ``. -/
def searchableTextOf (st : Student) : String :=
  lowerStr (st.firstName ++ " " ++ st.lastName ++ " " ++ st.email ++ " " ++ st.rollNo)

/-- The `similarity` computed for one student:
`1 - distance / maxLength` with `distance` the Levenshtein distance between
the lower-cased query and the searchable text and `maxLength` the larger of
the two lengths.  (`maxLength ≥ 3` always — the searchable text contains
its three joining spaces — so the JS division never hits `0 / 0`.) -/
def scoreOf (query : String) (st : Student) : ℚ :=
  1 - (levenshteinDistance (lowerStr query) (searchableTextOf st) : ℚ) /
    (max (lowerStr query).length (searchableTextOf st).length : ℚ)

/-- `fuzzySearch(students, query, threshold)`: score every student, keep
those with `similarity >= threshold`, sort by descending score
(`.sort((a, b) => b.score - a.score)`, a stable sort per the ECMAScript
specification, modeled by `mergeSort` with `le a b ↔ b.score - a.score ≤ 0`),
and return the students. -/
def fuzzySearch (students : List Student) (query : String) (threshold : ℚ) :
    List Student :=
  (((students.map (fun st => (st, scoreOf query st))).filter
      (fun p => decide (threshold ≤ p.2))).mergeSort
    (fun a b => decide (b.2 - a.2 ≤ 0))).map Prod.fst

/-- Test fixture: a student whose searchable text is `"a b c d"`. -/
def stA : Student := ⟨"s1", "a", "b", "c", "d"⟩

/-- Test fixture: a second, distinct student with the same searchable
text `"a b c d"` as `stA`. -/
def stB : Student := ⟨"s2", "a", "b", "c", "d"⟩

/-- Test fixture: a student whose searchable text is `"jo ng j@x 9"`. -/
def stC : Student := ⟨"s3", "jo", "ng", "j@x", "9"⟩


end AdvancedSearchEngine

/-! ## Analytics engine: descriptive statistics (`analyticsAlgorithms.ts`) -/

namespace AdvancedAnalyticsEngine

/-- `calculatePercentile` (linear interpolation between order statistics).
Reads are in bounds whenever the list is non-empty (`calculateStatistics`
rejects the empty list before calling this). -/
def calculatePercentile (sortedArray : List ℚ) (percentile : ℚ) : ℚ :=
  let index : ℚ := percentile / 100 * ((sortedArray.length : ℚ) - 1)
  let lower := ⌊index⌋
  let upper := ⌈index⌉
  if lower = upper then sortedArray.getD lower.toNat 0
  else
    sortedArray.getD lower.toNat 0 * ((upper : ℚ) - index) +
      sortedArray.getD upper.toNat 0 * (index - (lower : ℚ))

/-- `detectOutliers`: values outside `[q1 − 1.5·iqr, q3 + 1.5·iqr]`. -/
def detectOutliers (sorted : List ℚ) (q1 q3 iqr : ℚ) : List ℚ :=
  let lowerBound := q1 - 1.5 * iqr
  let upperBound := q3 + 1.5 * iqr
  sorted.filter (fun val => decide (val < lowerBound) || decide (val > upperBound))

/-- The population variance expression of `calculateStatistics`
(`Σ (v − mean)² / n`); shared with the real-valued companion fields below. -/
def varianceQ (values : List ℚ) : ℚ :=
  let mean := values.sum / (values.length : ℚ)
  (values.map (fun val => (val - mean) ^ 2)).sum / (values.length : ℚ)

/-- The fields of `StatisticalSummary` that are rational-valued in the
embedding.  The source's `standardDeviation`, `skewness` and `kurtosis`
fields involve `Math.sqrt` and are therefore real-valued; they are modelled
by the companion functions `standardDeviationOf`, `skewnessOf` and
`kurtosisOf` of the same input below rather than as fields. -/
structure StatisticalSummary where
  count : ℕ
  sum : ℚ
  mean : ℚ
  median : ℚ
  mode : List ℚ
  variance : ℚ
  min : ℚ
  max : ℚ
  range : ℚ
  q1 : ℚ
  q3 : ℚ
  iqr : ℚ
  outliers : List ℚ
deriving DecidableEq

/-- `calculateStatistics`: throws (`Except.error`) on an empty input,
otherwise computes the summary.  `[...values].sort((a, b) => a - b)` is
modelled as a stable merge sort under `a − b ≤ 0`, i.e. `a ≤ b` (for
numbers, any ECMAScript-conforming sort produces this order). -/
def calculateStatistics (values : List ℚ) : Except String StatisticalSummary :=
  if values.length = 0 then .error "Cannot calculate statistics for empty array"
  else
    let sorted := values.mergeSort (fun a b => decide (a - b ≤ 0))
    let n := values.length
    let sum := values.sum
    let mean := sum / (n : ℚ)
    let variance := (values.map (fun val => (val - mean) ^ 2)).sum / (n : ℚ)
    let median :=
      if n % 2 = 0 then (sorted.getD (n / 2 - 1) 0 + sorted.getD (n / 2) 0) / 2
      else sorted.getD (n / 2) 0
    let q1 := calculatePercentile sorted 25
    let q3 := calculatePercentile sorted 75
    let iqr := q3 - q1
    let frequency := values.foldl (fun m val => alSet m val ((alGet m val).getD 0 + 1))
      ([] : List (ℚ × ℕ))
    let maxFreq := (frequency.map (·.2)).foldl Nat.max 0
    let mode := (frequency.filter (fun e => e.2 == maxFreq)).map (·.1)
    .ok { count := n, sum := sum, mean := mean, median := median, mode := mode,
          variance := variance,
          min := sorted.getD 0 0, max := sorted.getD (n - 1) 0,
          range := sorted.getD (n - 1) 0 - sorted.getD 0 0,
          q1 := q1, q3 := q3, iqr := iqr,
          outliers := detectOutliers sorted q1 q3 iqr }

/-- `standardDeviation = Math.sqrt(variance)`: real-valued companion of
`calculateStatistics`. -/
noncomputable def standardDeviationOf (values : List ℚ) : ℝ :=
  Real.sqrt ((varianceQ values : ℚ) : ℝ)

/-- `skewness = Σ ((v − mean)/std)³ / n` (third standardized moment).  With
`std = 0` the JS division yields `NaN`; over `ℝ` division by zero yields
`0`, a divergence that is irrelevant to the claims settled here. -/
noncomputable def skewnessOf (values : List ℚ) : ℝ :=
  let mean : ℝ := ((values.sum / (values.length : ℚ) : ℚ) : ℝ)
  (values.map (fun val => (((val : ℝ) - mean) / standardDeviationOf values) ^ 3)).sum /
    (values.length : ℝ)

/-- `kurtosis = Σ ((v − mean)/std)⁴ / n − 3` (excess kurtosis); same
division-by-zero caveat as `skewnessOf`. -/
noncomputable def kurtosisOf (values : List ℚ) : ℝ :=
  let mean : ℝ := ((values.sum / (values.length : ℚ) : ℚ) : ℝ)
  (values.map (fun val => (((val : ℝ) - mean) / standardDeviationOf values) ^ 4)).sum /
    (values.length : ℝ) - 3

end AdvancedAnalyticsEngine

/-! ## JS float special values -/

/-- Minimal model of an IEEE-754 double for the spots where `NaN` or
`±Infinity` are observable outcomes: a finite value (as a rational), or one
of the three special values. -/
inductive JSNum where
  | num : ℚ → JSNum
  | nan : JSNum
  | inf : JSNum
  | ninf : JSNum
deriving DecidableEq

/-- JS division of finite doubles: `0/0` is `NaN`, `a/0` for `a ≠ 0` is a
signed infinity. -/
def jsDiv (a b : ℚ) : JSNum :=
  if b = 0 then (if a = 0 then .nan else if a > 0 then .inf else .ninf)
  else .num (a / b)

/-- JS subtraction of a finite double and a `JSNum`. -/
def jsSubFin (a : ℚ) : JSNum → JSNum
  | .num b => .num (a - b)
  | .nan => .nan
  | .inf => .ninf
  | .ninf => .inf

/-- `Math.max` of a finite double and a `JSNum`: `NaN` if an argument is
`NaN`. -/
def jsMaxFin (a : ℚ) : JSNum → JSNum
  | .num b => .num (max a b)
  | .nan => .nan
  | .inf => .inf
  | .ninf => .num a

/-! ## Prediction engine: ridge-regression confidence
(`predictionAlgorithms.ts`) -/

namespace PredictionEngine

/-- `predict`: `weights[0] + features.reduce((sum, f, i) => sum + f * weights[i+1], 0)`. -/
def predict (features weights : List ℚ) : ℚ :=
  weights.getD 0 0 + (features.enum.map (fun p => p.2 * weights.getD (p.1 + 1) 0)).sum

/-- `variance` of `predictionAlgorithms.ts` (population variance).  On the
empty list JS yields `NaN` (`0/0`); here `0` — callers in the claims pass a
non-empty list. -/
def variance (values : List ℚ) : ℚ :=
  let mean := values.sum / (values.length : ℚ)
  (values.map (fun val => (val - mean) ^ 2)).sum / (values.length : ℚ)

/-- The mean-squared-error expression inlined in `calculateConfidence`
(`predictions.reduce((sum, pred, i) => sum + (pred − y[i])², 0) / y.length`).
Named so the claims can talk about it.  JS reads `y[i]` for every
prediction index; the `zip` truncation is equivalent when `X` and `y` have
equal length (all callers). -/
def mseOf (X : List (List ℚ)) (y weights : List ℚ) : ℚ :=
  let predictions := X.map (fun features => predict features weights)
  ((predictions.zip y).map (fun p => (p.1 - p.2) ^ 2)).sum / (y.length : ℚ)

/-- `calculateConfidence = Math.max(0, 1 - mse / variance(y))`, with the
division and `Math.max` under JS float semantics (`JSNum`): there is no
guard for `variance(y) = 0` in the source. -/
def calculateConfidence (X : List (List ℚ)) (y weights : List ℚ) : JSNum :=
  jsMaxFin 0 (jsSubFin 1 (jsDiv (mseOf X y weights) (variance y)))

/-! ### K-means clustering (`kMeansClustering`)

The embedding works over the extracted feature rows
`points = students.map(student => features.map(f => extractNumericFeature(student, f)))`
— one rational row per record (`extractNumericFeature` always returns a
number).  The `Math.random()` draws of `initializeCentroids` are injected
as `rng i d` (centroid `i`, dimension `d`). -/

/-- `euclideanDistance(p, q)` **squared**: the source computes
`Math.sqrt(Σ (p[i] − q[i])²)`, and every consumer either squares the
result again (`calculateInertia`) or only compares it
(`findNearestCentroid`); since `Math.sqrt` is strictly monotone on
non-negatives and `sqrt(x)² = x`, the rational squared distance carries
the same information. -/
def euclidSq (p q : List ℚ) : ℚ :=
  ((List.range p.length).map (fun i => (p.getD i 0 - q.getD i 0) ^ 2)).sum

/-- The `centroids.forEach` scan of `findNearestCentroid`: `minDistance`
starts at `Infinity` (`none`), a centroid takes over only on a strict
decrease, so ties keep the earlier index. -/
def fncGo (point : List ℚ) : List (List ℚ) → ℕ → Option ℚ → ℕ → ℕ
  | [], _, _, best => best
  | c :: cs, idx, minD, best =>
    let d := euclidSq point c
    if (match minD with | none => true | some m => decide (d < m)) then
      fncGo point cs (idx + 1) (some d) idx
    else
      fncGo point cs (idx + 1) minD best

/-- `findNearestCentroid(point, centroids)`. -/
def findNearestCentroid (point : List ℚ) (centroids : List (List ℚ)) : ℕ :=
  fncGo point centroids 0 none 0

/-- `Math.min(...values)` for the non-empty argument lists produced inside
`initializeCentroids` (`points` is non-empty whenever it is reached). -/
def minQ : List ℚ → ℚ
  | [] => 0
  | x :: xs => xs.foldl min x

/-- `Math.max(...values)`, as `minQ`. -/
def maxQ : List ℚ → ℚ
  | [] => 0
  | x :: xs => xs.foldl max x

/-- `initializeCentroids`: `dimensions = points[0].length`, and entry `d` of
centroid `i` is `Math.random() * (max − min) + min` over the values of
dimension `d`. -/
def initializeCentroids (rng : ℕ → ℕ → ℚ) (points : List (List ℚ)) (k : ℕ) :
    List (List ℚ) :=
  let dimensions := (points.getD 0 []).length
  (List.range k).map (fun i =>
    (List.range dimensions).map (fun d =>
      let values := points.map (fun point => point.getD d 0)
      rng i d * (maxQ values - minQ values) + minQ values))

/-- `updateCentroids`: a cluster with no assigned points gets the
`new Array(dimensions).fill(0)` zero vector (the adjacent source comment
says `Keep the old centroid`, but the code pushes zeros); otherwise the
coordinatewise mean of its points.  A hole in `assignments` (`none`)
compares `=== cluster` false, as `undefined` does in JS. -/
def updateCentroids (points : List (List ℚ)) (assignments : List (Option ℕ))
    (k : ℕ) : List (List ℚ) :=
  let dimensions := (points.getD 0 []).length
  (List.range k).map (fun cluster =>
    let clusterPoints := (points.enum.filter
      (fun p => assignments.getD p.1 none == some cluster)).map (fun p => p.2)
    if clusterPoints.length = 0 then List.replicate dimensions 0
    else (List.range dimensions).map (fun d =>
      (clusterPoints.map (fun point => point.getD d 0)).sum /
        (clusterPoints.length : ℚ)))

/-- `arraysEqual(a, b) = a.length === b.length && a.every((val, i) => val === b[i])`.
The loop variable `assignments` starts as the **sparse**
`new Array(points.length)` — length `n`, no elements — modelled as
`replicate n none`; per the ECMAScript specification
`Array.prototype.every` does not invoke its callback on holes, so a hole
contributes `true`. -/
def arraysEqual (a : List (Option ℕ)) (b : List ℕ) : Bool :=
  a.length == b.length &&
  (List.range a.length).all (fun i =>
    match a.getD i none with
    | none => true
    | some v => v == b.getD i 0)

/-- The per-point step of `calculateInertia`:
`centroids[assignments[index]]` is `undefined` when `assignments[index]` is
a hole (or out of range), and `euclideanDistance(point, undefined)` then
throws at its first `point2[index]` read — but only if `point` has an
element: for an empty row, `[].reduce(fn, 0)` never invokes the callback,
so the distance is `Math.sqrt(0) = 0` and the point contributes `0`. -/
def inertiaGo (centroids : List (List ℚ)) (assignments : List (Option ℕ)) :
    List (List ℚ) → ℕ → ℚ → Except String ℚ
  | [], _, acc => .ok acc
  | point :: ps, i, acc =>
    match (assignments.getD i none).bind centroids.get?, point with
    | none, [] => inertiaGo centroids assignments ps (i + 1) acc
    | none, _ :: _ =>
      .error "TypeError: Cannot read properties of undefined (reading '0')"
    | some c, _ => inertiaGo centroids assignments ps (i + 1) (acc + euclidSq point c)

/-- `calculateInertia`: `Σ pow(euclideanDistance(point, centroid), 2)` over
the (dense) `points`, threading the possible `TypeError`. -/
def calculateInertia (points centroids : List (List ℚ))
    (assignments : List (Option ℕ)) : Except String ℚ :=
  inertiaGo centroids assignments points 0 0

/-- The `for (iteration = 0; iteration < maxIterations; …)` loop of
`kMeansClustering`: compute `newAssignments`, `break` when
`arraysEqual(assignments, newAssignments)`, otherwise install the new
assignments and recompute the centroids from them. -/
def kmLoop (points : List (List ℚ)) (k : ℕ) :
    ℕ → List (List ℚ) → List (Option ℕ) → List (List ℚ) × List (Option ℕ)
  | 0, centroids, assignments => (centroids, assignments)
  | fuel + 1, centroids, assignments =>
    let newAssignments := points.map (fun p => findNearestCentroid p centroids)
    if arraysEqual assignments newAssignments then (centroids, assignments)
    else kmLoop points k fuel (updateCentroids points (newAssignments.map some) k)
      (newAssignments.map some)

/-- The cluster-grouping pass
(`assignments.forEach((ci, si) => clusters[ci].push(si))`); `forEach`
skips holes.  An out-of-range index would throw in JS; `List.set` ignores
it — unreachable for the indices `findNearestCentroid` produces. -/
def groupClusters (k : ℕ) (assignments : List (Option ℕ)) : List (List ℕ) :=
  assignments.enum.foldl (fun clusters p =>
    match p.2 with
    | none => clusters
    | some j => clusters.set j (clusters.getD j [] ++ [p.1]))
    (List.replicate k [])

/-- The `ClusterResult` record: `clusters` holds record **indices** (the
source maps them back to the student records), `assignments` keeps the
possibly-sparse JS array as `Option`s. -/
structure ClusterResult where
  clusters : List (List ℕ)
  centroids : List (List ℚ)
  assignments : List (Option ℕ)
  inertia : ℚ
deriving DecidableEq

/-- `kMeansClustering(students, k, features, maxIterations = 100)` over the
feature rows.  On an empty collection `initializeCentroids` reads
`points[0].length` of `undefined` and throws; otherwise the loop runs, the
clusters are grouped, and the inertia is computed — `Except` threads the
`TypeError` that `calculateInertia` can raise. -/
def kMeansClustering (rng : ℕ → ℕ → ℚ) (points : List (List ℚ)) (k : ℕ)
    (maxIterations : ℕ) : Except String ClusterResult :=
  match points with
  | [] => .error "TypeError: Cannot read properties of undefined (reading 'length')"
  | _ :: _ =>
    let centroids0 := initializeCentroids rng points k
    let st := kmLoop points k maxIterations centroids0
      (List.replicate points.length none)
    match calculateInertia points st.1 st.2 with
    | .error e => .error e
    | .ok inertia => .ok ⟨groupClusters k st.2, st.1, st.2, inertia⟩

end PredictionEngine

end Nexus

namespace Nexus

namespace AdvancedSortingEngine

/-! ### List-level lemmas for the insertion step -/

theorem insFromRight_nil {T : Type} (cmp : T → T → ℚ) (k : T) :
    insFromRight cmp [] k = [k] := rfl

theorem insFromRight_snoc {T : Type} (cmp : T → T → ℚ) (Y : List T) (z k : T) :
    insFromRight cmp (Y ++ [z]) k =
      if 0 < cmp z k then insFromRight cmp Y k ++ [z] else Y ++ [z, k] := by
  simp only [insFromRight, List.reverse_append, List.reverse_cons, List.reverse_nil,
    List.nil_append, List.cons_append, insFromRightRev]
  split
  · simp
  · simp

theorem insFromRight_perm {T : Type} (cmp : T → T → ℚ) (Y : List T) (k : T) :
    (insFromRight cmp Y k).Perm (k :: Y) := by
  induction Y using List.reverseRecOn with
  | nil => rw [insFromRight_nil]
  | append_singleton Y₀ z ih =>
    rw [insFromRight_snoc]
    split
    · exact (by simpa using ih.append_right [z])
    · exact (by simpa using
        (show ((Y₀ ++ [z]) ++ k :: ([] : List T)).Perm
            (k :: ((Y₀ ++ [z]) ++ ([] : List T))) from List.perm_middle))

theorem insFromRight_length {T : Type} (cmp : T → T → ℚ) (Y : List T) (k : T) :
    (insFromRight cmp Y k).length = Y.length + 1 := by
  simpa using (insFromRight_perm cmp Y k).length_eq

/-- Decomposition of one insertion: the prefix splits as `A ++ B`, the key
lands between them, and every shifted element (in `B`) compares strictly
greater than the key. -/
theorem insFromRight_decomp {T : Type} (cmp : T → T → ℚ) (Y : List T) (k : T) :
    ∃ A B, Y = A ++ B ∧ insFromRight cmp Y k = A ++ k :: B ∧
      ∀ b ∈ B, 0 < cmp b k := by
  induction Y using List.reverseRecOn with
  | nil => exact ⟨[], [], by simp, by simp [insFromRight_nil], by simp⟩
  | append_singleton Y₀ z ih =>
    rw [insFromRight_snoc]
    by_cases hz : 0 < cmp z k
    · obtain ⟨A, B, hY, hins, hB⟩ := ih
      refine ⟨A, B ++ [z], by simp [hY], ?_, ?_⟩
      · simp [hz, hins]
      · intro b hb
        rcases List.mem_append.1 hb with hb | hb
        · exact hB b hb
        · rw [List.mem_singleton] at hb; subst hb; exact hz
    · refine ⟨Y₀ ++ [z], [], by simp, ?_, by simp⟩
      simp [hz]

theorem insFromRight_sorted {T : Type} {cmp : T → T → ℚ}
    (htot : CmpTotal cmp) (htrans : CmpTrans cmp) (Y : List T) (k : T)
    (hY : List.Pairwise (cle cmp) Y) :
    List.Pairwise (cle cmp) (insFromRight cmp Y k) := by
  induction Y using List.reverseRecOn with
  | nil => simp [insFromRight_nil]
  | append_singleton Y₀ z ih =>
    rw [List.pairwise_append] at hY
    obtain ⟨hY₀, -, hcross⟩ := hY
    have hcz : ∀ a ∈ Y₀, cle cmp a z := fun a ha => hcross a ha z (by simp)
    rw [insFromRight_snoc]
    by_cases hz : 0 < cmp z k
    · rw [if_pos hz, List.pairwise_append]
      refine ⟨ih hY₀, by simp, ?_⟩
      intro a ha b hb
      rw [List.mem_singleton] at hb
      rw [hb]
      have ha2 : a ∈ k :: Y₀ := (insFromRight_perm cmp Y₀ k).mem_iff.1 ha
      rcases List.mem_cons.1 ha2 with h | ha3
      · rw [h]
        rcases htot k z with hh | hh
        · exact hh
        · exact absurd hz (not_lt.2 hh)
      · exact hcz a ha3
    · rw [if_neg hz, List.pairwise_append]
      have hzk : cle cmp z k := not_lt.1 hz
      refine ⟨hY₀, ?_, ?_⟩
      · exact List.pairwise_cons.2
          ⟨by intro b hb; rw [List.mem_singleton] at hb; rw [hb]; exact hzk, by simp⟩
      · intro a ha b hb
        rcases List.mem_cons.1 hb with h | hb2
        · rw [h]; exact hcz a ha
        · rw [List.mem_singleton] at hb2; rw [hb2]
          exact htrans a z k (hcz a ha) hzk

/-- Inserting a key preserves existing sublists. -/
theorem insFromRight_sublist {T : Type} (cmp : T → T → ℚ) {Y u : List T} (k : T)
    (hu : u.Sublist Y) : u.Sublist (insFromRight cmp Y k) := by
  obtain ⟨A, B, hY, hins, -⟩ := insFromRight_decomp cmp Y k
  rw [hins]
  subst hY
  exact hu.trans (List.Sublist.append (List.Sublist.refl A) (List.sublist_cons_self k B))

/-- A sublist whose elements all compare `≤` with the key may be extended by
the key: the key is inserted after every such element. -/
theorem insFromRight_sublist_snoc {T : Type} (cmp : T → T → ℚ) {Y u : List T} (k : T)
    (hu : u.Sublist Y) (hle : ∀ a ∈ u, cle cmp a k) :
    (u ++ [k]).Sublist (insFromRight cmp Y k) := by
  obtain ⟨A, B, hY, hins, hB⟩ := insFromRight_decomp cmp Y k
  subst hY
  rw [hins]
  rw [List.sublist_append_iff] at hu
  obtain ⟨u₁, u₂, rfl, hu₁, hu₂⟩ := hu
  have hu₂nil : u₂ = [] := by
    cases u₂ with
    | nil => rfl
    | cons x xs =>
      exfalso
      have hx : x ∈ B := hu₂.subset (by simp)
      have h1 : 0 < cmp x k := hB x hx
      have h2 : cle cmp x k := hle x (by simp)
      exact absurd h1 (not_lt.2 h2)
  subst hu₂nil
  rw [List.append_nil]
  exact List.Sublist.append hu₁ (by simp)

/-! ### List-level lemmas for `insFoldL` / `insertionSortL` -/

theorem insFoldL_perm {T : Type} (cmp : T → T → ℚ) :
    ∀ (M acc : List T), (insFoldL cmp acc M).Perm (acc ++ M)
  | [], acc => by simp [insFoldL]
  | k :: M, acc => by
    have h1 := insFoldL_perm cmp M (insFromRight cmp acc k)
    have h2 : (insFromRight cmp acc k ++ M).Perm (acc ++ k :: M) := by
      refine ((insFromRight_perm cmp acc k).append_right M).trans ?_
      exact (by simpa using
        (show (acc ++ k :: M).Perm (k :: (acc ++ M)) from List.perm_middle).symm)
    exact (by simpa [insFoldL] using h1.trans h2)

theorem insertionSortL_perm {T : Type} (cmp : T → T → ℚ) (l : List T) :
    (insertionSortL cmp l).Perm l := by
  cases l with
  | nil => simp [insertionSortL]
  | cons s rest => simpa [insertionSortL] using insFoldL_perm cmp rest [s]

theorem insertionSortL_length {T : Type} (cmp : T → T → ℚ) (l : List T) :
    (insertionSortL cmp l).length = l.length :=
  (insertionSortL_perm cmp l).length_eq

theorem insFoldL_sorted {T : Type} {cmp : T → T → ℚ}
    (htot : CmpTotal cmp) (htrans : CmpTrans cmp) :
    ∀ (M acc : List T), List.Pairwise (cle cmp) acc →
      List.Pairwise (cle cmp) (insFoldL cmp acc M)
  | [], acc, hacc => by simpa [insFoldL] using hacc
  | k :: M, acc, hacc =>
    insFoldL_sorted htot htrans M (insFromRight cmp acc k)
      (insFromRight_sorted htot htrans acc k hacc)

theorem insertionSortL_sorted {T : Type} {cmp : T → T → ℚ}
    (htot : CmpTotal cmp) (htrans : CmpTrans cmp) (l : List T) :
    List.Pairwise (cle cmp) (insertionSortL cmp l) := by
  cases l with
  | nil => simp [insertionSortL]
  | cons s rest => exact insFoldL_sorted htot htrans rest [s] (by simp)

theorem insFoldL_stable {T : Type} {cmp : T → T → ℚ}
    (htot : CmpTotal cmp) (htrans : CmpTrans cmp) :
    ∀ (M acc lsub : List T), List.Pairwise (cle cmp) acc →
      lsub.Sublist (acc ++ M) → List.Pairwise (cle cmp) lsub →
      lsub.Sublist (insFoldL cmp acc M)
  | [], acc, lsub, _, hsub, _ => by simpa [insFoldL] using hsub
  | k :: M, acc, lsub, hacc, hsub, hpair => by
    rw [show acc ++ k :: M = acc ++ [k] ++ M by simp] at hsub
    rw [List.sublist_append_iff] at hsub
    obtain ⟨u, w, rfl, hu, hw⟩ := hsub
    rw [List.sublist_append_iff] at hu
    obtain ⟨u₁, u₂, rfl, hu₁, hu₂⟩ := hu
    have hstep : (u₁ ++ u₂ ++ w).Sublist (insFromRight cmp acc k ++ M) := by
      cases u₂ with
      | nil =>
        simp only [List.append_nil]
        exact List.Sublist.append (insFromRight_sublist cmp k hu₁) hw
      | cons x xs =>
        have hx9 : x :: xs = [k] := by
          rcases List.sublist_cons_iff.1 hu₂ with h | ⟨r, hr, hr2⟩
          · exact absurd h (by simp)
          · have hr3 : r = [] := List.sublist_nil.1 hr2
            rw [hr, hr3]
        rw [hx9] at hpair ⊢
        have hle : ∀ a ∈ u₁, cle cmp a k := by
          intro a ha
          have hp1 : List.Pairwise (cle cmp) (u₁ ++ [k]) :=
            (List.pairwise_append.1 hpair).1
          exact (List.pairwise_append.1 hp1).2.2 a ha k (by simp)
        exact List.Sublist.append (insFromRight_sublist_snoc cmp k hu₁ hle) hw
    exact insFoldL_stable htot htrans M (insFromRight cmp acc k) (u₁ ++ u₂ ++ w)
      (insFromRight_sorted htot htrans acc k hacc) hstep hpair

theorem insertionSortL_stable {T : Type} {cmp : T → T → ℚ}
    (htot : CmpTotal cmp) (htrans : CmpTrans cmp) (l lsub : List T)
    (hsub : lsub.Sublist l) (hpair : List.Pairwise (cle cmp) lsub) :
    lsub.Sublist (insertionSortL cmp l) := by
  cases l with
  | nil => simpa [insertionSortL] using hsub
  | cons s rest =>
    exact insFoldL_stable htot htrans rest [s] lsub (by simp) (by simpa using hsub) hpair

/-! ### List-level lemmas for `mergeL` -/

theorem mergeL_nil_left {T : Type} (cmp : T → T → ℚ) (R : List T) :
    mergeL cmp [] R = R := by simp [mergeL]

theorem mergeL_nil_right {T : Type} (cmp : T → T → ℚ) (L : List T) :
    mergeL cmp L [] = L := by cases L <;> simp [mergeL]

theorem mergeL_perm {T : Type} (cmp : T → T → ℚ) :
    ∀ (L R : List T), (mergeL cmp L R).Perm (L ++ R)
  | [], R => by simp [mergeL_nil_left]
  | L, [] => by simp [mergeL_nil_right]
  | a :: L, b :: R => by
    simp only [mergeL]
    split
    · exact (mergeL_perm cmp L (b :: R)).cons a
    · exact ((mergeL_perm cmp (a :: L) R).cons b).trans
        (by simpa using
          (show ((a :: L) ++ b :: R).Perm (b :: ((a :: L) ++ R)) from
            List.perm_middle).symm)
termination_by L R => L.length + R.length

theorem mergeL_length {T : Type} (cmp : T → T → ℚ) (L R : List T) :
    (mergeL cmp L R).length = L.length + R.length := by
  simpa using (mergeL_perm cmp L R).length_eq

theorem mergeL_sorted {T : Type} {cmp : T → T → ℚ}
    (htot : CmpTotal cmp) (htrans : CmpTrans cmp) :
    ∀ (L R : List T), List.Pairwise (cle cmp) L → List.Pairwise (cle cmp) R →
      List.Pairwise (cle cmp) (mergeL cmp L R)
  | [], R, _, hR => by simpa [mergeL_nil_left] using hR
  | L, [], hL, _ => by simpa [mergeL_nil_right] using hL
  | a :: L, b :: R, hL, hR => by
    simp only [mergeL]
    rw [List.pairwise_cons] at hL hR
    split
    · rename_i hab
      rw [List.pairwise_cons]
      refine ⟨?_, mergeL_sorted htot htrans L (b :: R) hL.2 (List.pairwise_cons.2 hR)⟩
      intro x hx
      have hx2 : x ∈ L ++ b :: R := (mergeL_perm cmp L (b :: R)).mem_iff.1 hx
      rcases List.mem_append.1 hx2 with hx3 | hx3
      · exact hL.1 x hx3
      · rcases List.mem_cons.1 hx3 with h | hx4
        · subst h; exact hab
        · exact htrans a b x hab (hR.1 x hx4)
    · rename_i hab
      have hba : cle cmp b a := by
        rcases htot a b with h | h
        · exact absurd h hab
        · exact h
      rw [List.pairwise_cons]
      refine ⟨?_, mergeL_sorted htot htrans (a :: L) R (List.pairwise_cons.2 hL) hR.2⟩
      intro x hx
      have hx2 : x ∈ (a :: L) ++ R := (mergeL_perm cmp (a :: L) R).mem_iff.1 hx
      rcases List.mem_append.1 hx2 with hx3 | hx3
      · rcases List.mem_cons.1 hx3 with h | hx4
        · subst h; exact hba
        · exact htrans b a x hba (hL.1 x hx4)
      · exact hR.1 x hx3
termination_by L R _ _ => L.length + R.length

/-- Stability of the merge: a `cle`-sorted sublist of `L ++ R` is a sublist
of the merged output, provided the left run is sorted (bottom-up merge sort
only merges sorted runs). -/
theorem mergeL_stable {T : Type} {cmp : T → T → ℚ} (htrans : CmpTrans cmp) :
    ∀ (L R lsub : List T), List.Pairwise (cle cmp) L →
      lsub.Sublist (L ++ R) → List.Pairwise (cle cmp) lsub →
      lsub.Sublist (mergeL cmp L R)
  | [], R, lsub, _, hsub, _ => by simpa [mergeL_nil_left] using hsub
  | L, [], lsub, _, hsub, _ => by simpa [mergeL_nil_right] using hsub
  | a :: L, b :: R, lsub, hL, hsub, hpair => by
    simp only [mergeL]
    split
    · rename_i hab
      have hsub2 : lsub.Sublist (a :: (L ++ b :: R)) := by simpa using hsub
      rcases List.sublist_cons_iff.1 hsub2 with h | ⟨r, rfl, hr⟩
      · exact (mergeL_stable htrans L (b :: R) lsub
          (List.pairwise_cons.1 hL).2 h hpair).trans (List.sublist_cons_self _ _)
      · exact (mergeL_stable htrans L (b :: R) r
          (List.pairwise_cons.1 hL).2 hr (List.pairwise_cons.1 hpair).2).cons₂ a
    · rename_i hab
      rw [List.sublist_append_iff] at hsub
      obtain ⟨u, v, rfl, hu, hv⟩ := hsub
      rcases List.sublist_cons_iff.1 hv with hv2 | ⟨v2, rfl, hv2⟩
      · exact ((mergeL_stable htrans (a :: L) R (u ++ v) hL
          (List.Sublist.append hu hv2) hpair).trans (List.sublist_cons_self _ _))
      · cases u with
        | nil =>
          simp only [List.nil_append] at hpair ⊢
          refine List.Sublist.cons₂ b ?_
          exact mergeL_stable htrans (a :: L) R v2 hL
            (List.sublist_append_of_sublist_right hv2)
            (List.pairwise_cons.1 hpair).2
        | cons x u2 =>
          exfalso
          have hxb : cle cmp x b := by
            rw [List.pairwise_append] at hpair
            exact hpair.2.2 x (by simp) b (by simp)
          have hx : x ∈ a :: L := hu.subset (by simp)
          rcases List.mem_cons.1 hx with h | hxL
          · subst h; exact hab hxb
          · exact hab (htrans a x b ((List.pairwise_cons.1 hL).1 x hxL) hxb)
termination_by L R _ _ _ _ => L.length + R.length

/-! ### Bridging the in-place insertion sort to its list-level counterpart -/

theorem getD_at {T : Type} (A B : List T) (z d : T) :
    (A ++ z :: B).getD A.length d = z := by
  induction A with
  | nil => rfl
  | cons a A ih => simpa using ih

theorem set_at {T : Type} (A B : List T) (z v : T) :
    (A ++ z :: B).set A.length v = A ++ v :: B := by
  induction A with
  | nil => rfl
  | cons a A ih => simp [List.set, ih]

/-- The inner shifting loop realises `insFromRight`: starting from
`P ++ Y ++ r :: R2` with the write cursor on the cell holding `r`
(initially the saved key's own cell), it produces `P ++ insFromRight Y key ++ R2`. -/
theorem insInner_spec {T : Type} [Inhabited T] (cmp : T → T → ℚ) (key : T) (low : ℕ)
    (Y : List T) : ∀ (P R2 : List T) (r : T), P.length = low →
    insInner cmp key low (P ++ Y ++ r :: R2) (low + Y.length) =
      P ++ insFromRight cmp Y key ++ R2 := by
  induction Y using List.reverseRecOn with
  | nil =>
    intro P R2 r hP
    rw [insInner]
    rw [dif_neg (by simp)]
    simp only [List.length_nil, Nat.add_zero, List.append_nil, insFromRight_nil]
    rw [← hP, set_at]
    simp
  | append_singleton Y₀ z ih =>
    intro P R2 r hP
    have harr : P ++ (Y₀ ++ [z]) ++ r :: R2 = (P ++ Y₀) ++ z :: (r :: R2) := by simp
    have hjp : low + (Y₀ ++ [z]).length = (P ++ Y₀).length + 1 := by
      simp only [List.length_append, List.length_singleton, hP]
      omega
    have hget : (P ++ (Y₀ ++ [z]) ++ r :: R2).getD (low + (Y₀ ++ [z]).length - 1) default = z := by
      rw [harr, hjp]
      simpa using getD_at (P ++ Y₀) (r :: R2) z default
    rw [insInner, hget]
    by_cases hz : 0 < cmp z key
    · rw [dif_pos ⟨by simp [hjp], hz⟩]
      have hset : (P ++ (Y₀ ++ [z]) ++ r :: R2).set (low + (Y₀ ++ [z]).length) z =
          P ++ Y₀ ++ z :: (z :: R2) := by
        have h2 : P ++ (Y₀ ++ [z]) ++ r :: R2 = (P ++ (Y₀ ++ [z])) ++ r :: R2 := by simp
        have h3 : low + (Y₀ ++ [z]).length = (P ++ (Y₀ ++ [z])).length := by
          simp only [List.length_append, List.length_singleton, hP]
        rw [h2, h3, set_at]
        simp
      have hjp2 : low + (Y₀ ++ [z]).length - 1 = low + Y₀.length := by
        simp only [List.length_append, List.length_singleton]
        omega
      rw [hset, hjp2]
      have := ih P (z :: R2) z hP
      rw [show P ++ Y₀ ++ z :: (z :: R2) = P ++ Y₀ ++ (z :: (z :: R2)) by simp] at *
      rw [this, insFromRight_snoc, if_pos hz]
      simp
    · rw [dif_neg (by intro hc; exact hz hc.2)]
      have h2 : P ++ (Y₀ ++ [z]) ++ r :: R2 = (P ++ (Y₀ ++ [z])) ++ r :: R2 := by simp
      have h3 : low + (Y₀ ++ [z]).length = (P ++ (Y₀ ++ [z])).length := by
        simp only [List.length_append, List.length_singleton, hP]
      rw [h2, h3, set_at, insFromRight_snoc, if_neg hz]
      simp

/-- The outer insertion loop realises `insFoldL` on the remaining keys. -/
theorem insOuter_spec {T : Type} [Inhabited T] (cmp : T → T → ℚ) (low : ℕ)
    (M : List T) : ∀ (acc P D : List T), P.length = low → acc ≠ [] →
    insOuter cmp low (low + acc.length + M.length - 1) (P ++ acc ++ M ++ D)
      (low + acc.length) = P ++ insFoldL cmp acc M ++ D := by
  induction M with
  | nil =>
    intro acc P D hP hacc
    have hlen : 1 ≤ acc.length := by
      cases acc with
      | nil => exact absurd rfl hacc
      | cons a l => simp
    rw [insOuter, dif_neg (by simp only [List.length_nil]; omega)]
    simp [insFoldL]
  | cons k M2 ih =>
    intro acc P D hP hacc
    have hle : low + acc.length ≤ low + acc.length + (k :: M2).length - 1 := by
      simp only [List.length_cons]; omega
    rw [insOuter, dif_pos hle]
    have hget : (P ++ acc ++ (k :: M2) ++ D).getD (low + acc.length) default = k := by
      have h2 : P ++ acc ++ (k :: M2) ++ D = (P ++ acc) ++ k :: (M2 ++ D) := by simp
      have h3 : low + acc.length = (P ++ acc).length := by simp [hP]
      rw [h2, h3]
      exact getD_at (P ++ acc) (M2 ++ D) k default
    have harr : P ++ acc ++ (k :: M2) ++ D = P ++ acc ++ k :: (M2 ++ D) := by simp
    have hinner : insInner cmp k low (P ++ acc ++ (k :: M2) ++ D) (low + acc.length) =
        P ++ insFromRight cmp acc k ++ (M2 ++ D) := by
      rw [harr]
      exact insInner_spec cmp k low acc P (M2 ++ D) k hP
    rw [hget, hinner]
    have hacc2 : insFromRight cmp acc k ≠ [] := by
      have := insFromRight_length cmp acc k
      intro h
      rw [h] at this
      simp at this
    have hlen2 : low + acc.length + 1 = low + (insFromRight cmp acc k).length := by
      rw [insFromRight_length]; omega
    have hhigh : low + acc.length + (k :: M2).length - 1 =
        low + (insFromRight cmp acc k).length + M2.length - 1 := by
      rw [insFromRight_length]; simp; omega
    have harr2 : P ++ insFromRight cmp acc k ++ (M2 ++ D) =
        P ++ insFromRight cmp acc k ++ M2 ++ D := by simp
    rw [hlen2, hhigh, harr2]
    rw [ih (insFromRight cmp acc k) P D hP hacc2]
    rfl

/-- `insertionSort` on `[low, high]` is a splice of the list-level insertion
sort of that segment. -/
theorem insertionSort_spec {T : Type} [Inhabited T] (cmp : T → T → ℚ)
    (arr : List T) (low high : ℕ) (h1 : low ≤ high) (h2 : high < arr.length) :
    insertionSort cmp arr low high =
      arr.take low ++ insertionSortL cmp ((arr.drop low).take (high + 1 - low)) ++
        arr.drop (high + 1) := by
  have hseglen : ((arr.drop low).take (high + 1 - low)).length = high + 1 - low := by
    simp [List.length_take, List.length_drop]
    omega
  obtain ⟨s, rest, hseg⟩ : ∃ s rest, (arr.drop low).take (high + 1 - low) = s :: rest := by
    cases hc : (arr.drop low).take (high + 1 - low) with
    | nil => rw [hc] at hseglen; simp at hseglen; omega
    | cons s rest => exact ⟨s, rest, rfl⟩
  have hdecomp : arr = arr.take low ++ (s :: rest) ++ arr.drop (high + 1) := by
    rw [← hseg]
    have hdd : (arr.drop low).drop (high + 1 - low) = arr.drop (high + 1) := by
      rw [List.drop_drop]
      congr 1
      omega
    rw [← hdd, List.append_assoc, List.take_append_drop, List.take_append_drop]
  have hrestlen : rest.length = high - low := by
    rw [hseg] at hseglen
    simp at hseglen
    omega
  have hP : (arr.take low).length = low := by
    simp [List.length_take]
    omega
  have hhigh : high = low + ([s] : List T).length + rest.length - 1 := by
    simp [hrestlen]; omega
  have hstart : low + 1 = low + ([s] : List T).length := by simp
  unfold insertionSort
  rw [hseg]
  set P := arr.take low with hPdef
  set D := arr.drop (high + 1) with hDdef
  conv_lhs => rw [hdecomp]
  have harr3 : P ++ s :: rest ++ D = P ++ [s] ++ rest ++ D := by simp
  rw [harr3, hhigh, hstart]
  rw [insOuter_spec cmp low rest [s] P D hP (by simp)]
  rfl

/-! ### Bridging the in-place merge to `mergeL` -/

/-- The write-back loop overwrites exactly the next
`(L.length − i) + (R.length − j)` cells with the merge of the unread suffixes. -/
theorem mergeInto_spec {T : Type} [Inhabited T] (cmp : T → T → ℚ) (L R : List T) :
    ∀ (B : List T) (i j : ℕ) (A C : List T),
      L.length - i + (R.length - j) = B.length →
      mergeInto cmp L R (A ++ B ++ C) i j A.length =
        A ++ mergeL cmp (L.drop i) (R.drop j) ++ C := by
  intro B
  induction B with
  | nil =>
    intro i j A C hlen
    have hi : L.length ≤ i := by simp at hlen; omega
    have hj : R.length ≤ j := by simp at hlen; omega
    rw [mergeInto, dif_neg (by omega), dif_neg (by omega)]
    rw [List.drop_eq_nil_of_le hi, List.drop_eq_nil_of_le hj, mergeL_nil_left]
  | cons b B' ih =>
    intro i j A C hlen
    simp only [List.length_cons] at hlen
    have hwrite : ∀ x : T, (A ++ (b :: B') ++ C).set A.length x =
        (A ++ [x]) ++ B' ++ C := by
      intro x
      have h1 : A ++ (b :: B') ++ C = A ++ b :: (B' ++ C) := by simp
      rw [h1, set_at]
      simp
    by_cases hi : i < L.length
    · have hLd : L.drop i = L.getD i default :: L.drop (i + 1) := by
        rw [List.getD_eq_getElem L default hi]
        exact List.drop_eq_getElem_cons hi
      by_cases hj : j < R.length
      · have hRd : R.drop j = R.getD j default :: R.drop (j + 1) := by
          rw [List.getD_eq_getElem R default hj]
          exact List.drop_eq_getElem_cons hj
        rw [mergeInto, dif_pos hi, if_pos hj]
        by_cases hc : cmp (L.getD i default) (R.getD j default) ≤ 0
        · rw [if_pos hc, hwrite]
          have hA : A.length + 1 = (A ++ [L.getD i default]).length := by simp
          rw [hA, ih (i + 1) j (A ++ [L.getD i default]) C (by omega)]
          rw [hLd, hRd]
          simp only [mergeL]
          rw [if_pos hc]
          simp
        · rw [if_neg hc, hwrite]
          have hA : A.length + 1 = (A ++ [R.getD j default]).length := by simp
          rw [hA, ih i (j + 1) (A ++ [R.getD j default]) C (by omega)]
          rw [hLd, hRd]
          simp only [mergeL]
          rw [if_neg hc]
          simp
      · rw [mergeInto, dif_pos hi, if_neg hj, hwrite]
        have hA : A.length + 1 = (A ++ [L.getD i default]).length := by simp
        rw [hA, ih (i + 1) j (A ++ [L.getD i default]) C (by omega)]
        rw [List.drop_eq_nil_of_le (by omega : R.length ≤ j), mergeL_nil_right,
          mergeL_nil_right, hLd]
        simp
    · have hj : j < R.length := by omega
      have hRd : R.drop j = R.getD j default :: R.drop (j + 1) := by
        rw [List.getD_eq_getElem R default hj]
        exact List.drop_eq_getElem_cons hj
      rw [mergeInto, dif_neg hi, dif_pos hj, hwrite]
      have hA : A.length + 1 = (A ++ [R.getD j default]).length := by simp
      rw [hA, ih i (j + 1) (A ++ [R.getD j default]) C (by omega)]
      rw [List.drop_eq_nil_of_le (by omega : L.length ≤ i), mergeL_nil_left,
        mergeL_nil_left, hRd]
      simp

/-- `merge(arr, left, mid, right)` is a splice of `mergeL` applied to the two
saved slices. -/
theorem merge_spec {T : Type} [Inhabited T] (cmp : T → T → ℚ) (arr : List T)
    (left mid right : ℕ) (h1 : left ≤ mid) (h2 : mid < right) (h3 : right < arr.length) :
    merge cmp arr left mid right =
      arr.take left ++
        mergeL cmp ((arr.drop left).take (mid + 1 - left))
          ((arr.drop (mid + 1)).take (right - mid)) ++
        arr.drop (right + 1) := by
  have hmshow : merge cmp arr left mid right =
      mergeInto cmp ((arr.drop left).take (mid + 1 - left))
        ((arr.drop (mid + 1)).take (right - mid)) arr 0 0 left := rfl
  rw [hmshow]
  have hLlen : ((arr.drop left).take (mid + 1 - left)).length = mid + 1 - left := by
    simp [List.length_take, List.length_drop]; omega
  have hRlen : ((arr.drop (mid + 1)).take (right - mid)).length = right - mid := by
    simp [List.length_take, List.length_drop]; omega
  have hBlen : ((arr.drop left).take (right + 1 - left)).length = right + 1 - left := by
    simp [List.length_take, List.length_drop]; omega
  have hdecomp : arr = arr.take left ++ (arr.drop left).take (right + 1 - left) ++
      arr.drop (right + 1) := by
    have hdd : (arr.drop left).drop (right + 1 - left) = arr.drop (right + 1) := by
      rw [List.drop_drop]; congr 1; omega
    rw [← hdd, List.append_assoc, List.take_append_drop, List.take_append_drop]
  set L := (arr.drop left).take (mid + 1 - left) with hLdef
  set R := (arr.drop (mid + 1)).take (right - mid) with hRdef
  set A := arr.take left with hAdef
  set C := arr.drop (right + 1) with hCdef
  set B := (arr.drop left).take (right + 1 - left) with hBdef
  have hA : A.length = left := by rw [hAdef]; simp [List.length_take]; omega
  have hlen2 : L.length - 0 + (R.length - 0) = B.length := by
    rw [hLlen, hRlen, hBlen]; omega
  have hmain : mergeInto cmp L R (A ++ B ++ C) 0 0 A.length =
      A ++ mergeL cmp (L.drop 0) (R.drop 0) ++ C :=
    mergeInto_spec cmp L R B 0 0 A C hlen2
  rw [List.drop_zero, List.drop_zero] at hmain
  conv_lhs => rw [hdecomp, ← hA]
  exact hmain

/-! ### Bridging the run phase to chunk level -/

theorem chunkSort_nil {T : Type} (cmp : T → T → ℚ) : chunkSort cmp [] = [] := by
  rw [chunkSort]

theorem chunkSort_expand {T : Type} (cmp : T → T → ℚ) (l : List T) (h : l ≠ []) :
    chunkSort cmp l = insertionSortL cmp (l.take 32) ++ chunkSort cmp (l.drop 32) := by
  cases l with
  | nil => exact absurd rfl h
  | cons x xs =>
    rw [chunkSort, show (32 : ℕ) = 31 + 1 from rfl, List.drop_succ_cons]

theorem timRuns_spec {T : Type} [Inhabited T] (cmp : T → T → ℚ) :
    ∀ (fuel : ℕ) (B A : List T), B.length ≤ fuel →
      timRuns cmp (A.length + B.length) (A ++ B) A.length = A ++ chunkSort cmp B := by
  intro fuel
  induction fuel with
  | zero =>
    intro B A hB
    have hBnil : B = [] := List.length_eq_zero.1 (by omega)
    subst hBnil
    rw [timRuns, dif_neg (by simp)]
    simp [chunkSort_nil]
  | succ fuel ih =>
    intro B A hB
    rcases Nat.eq_zero_or_pos B.length with hB0 | hBpos
    · have hBnil : B = [] := List.length_eq_zero.1 hB0
      subst hBnil
      rw [timRuns, dif_neg (by simp)]
      simp [chunkSort_nil]
    · have hBne : B ≠ [] := by
        intro h; rw [h] at hBpos; simp at hBpos
      set n := A.length + B.length with hn
      have hlt : A.length < n := by omega
      rw [timRuns, dif_pos hlt]
      have hlow : A.length ≤ min (A.length + 31) (n - 1) := by omega
      have hhigh : min (A.length + 31) (n - 1) < (A ++ B).length := by
        simp only [List.length_append]; omega
      rw [insertionSort_spec cmp (A ++ B) A.length (min (A.length + 31) (n - 1))
        hlow hhigh]
      have hc : min (A.length + 31) (n - 1) + 1 - A.length = min 32 B.length := by
        omega
      have htakeA : (A ++ B).take A.length = A := List.take_left A B
      have hdropA : (A ++ B).drop A.length = B := List.drop_left A B
      have htake32 : B.take (min 32 B.length) = B.take 32 := by
        rcases le_total B.length 32 with h | h
        · rw [min_eq_right h, List.take_length, List.take_of_length_le h]
        · rw [min_eq_left h]
      have hdrop32 : (A ++ B).drop (min (A.length + 31) (n - 1) + 1) = B.drop 32 := by
        have h1 : min (A.length + 31) (n - 1) + 1 = A.length + min 32 B.length := by
          omega
        rw [h1, ← List.drop_drop, hdropA]
        rcases le_total B.length 32 with h | h
        · rw [min_eq_right h, List.drop_length, List.drop_eq_nil_of_le h]
        · rw [min_eq_left h]
      rw [hc, hdropA, htakeA, htake32, hdrop32]
      have hA2len : (A ++ insertionSortL cmp (B.take 32)).length =
          A.length + min 32 B.length := by
        simp [insertionSortL_length, List.length_take]
      rcases le_or_lt B.length 32 with hble | hbgt
      · have hdropnil : B.drop 32 = [] := List.drop_eq_nil_of_le hble
        rw [hdropnil]
        have hstop : ¬ (A.length + 32 < n) := by omega
        rw [timRuns, dif_neg hstop]
        rw [chunkSort_expand cmp B hBne, hdropnil, chunkSort_nil]
        simp
      · have hfuel : (B.drop 32).length ≤ fuel := by
          simp [List.length_drop]; omega
        have hstep := ih (B.drop 32) (A ++ insertionSortL cmp (B.take 32)) hfuel
        rw [hA2len] at hstep
        have h32 : A.length + min 32 B.length = A.length + 32 := by omega
        rw [h32] at hstep
        have hn2 : A.length + 32 + (B.drop 32).length = n := by
          simp [List.length_drop]; omega
        rw [hn2] at hstep
        rw [hstep]
        rw [chunkSort_expand cmp B hBne]
        simp

/-! ### Bridging one merge pass to chunk level -/

theorem mergePassL_nil {T : Type} (cmp : T → T → ℚ) (size : ℕ) :
    mergePassL cmp size [] = [] := by
  rw [mergePassL]

theorem mergePassL_expand {T : Type} (cmp : T → T → ℚ) (size : ℕ) (l : List T)
    (h : l ≠ []) (hs : 1 ≤ size) :
    mergePassL cmp size l =
      (if size < (l.take (2 * size)).length then
        mergeL cmp ((l.take (2 * size)).take size) ((l.take (2 * size)).drop size)
      else l.take (2 * size)) ++ mergePassL cmp size (l.drop (2 * size)) := by
  cases l with
  | nil => exact absurd rfl h
  | cons x xs =>
    rw [mergePassL]
    have hd : xs.drop (2 * size - 1) = (x :: xs).drop (2 * size) := by
      have h2 : 2 * size = (2 * size - 1) + 1 := by omega
      rw [h2]
      rfl
    rw [hd]

theorem timMergePass_stop {T : Type} [Inhabited T] (cmp : T → T → ℚ) (n size : ℕ) :
    ∀ (fuel : ℕ) (arr : List T) (start : ℕ), ¬ (start < n) →
      timMergePass cmp n size fuel arr start = arr := by
  intro fuel
  cases fuel with
  | zero => intro arr start _; rfl
  | succ fuel =>
    intro arr start h
    simp only [timMergePass]
    rw [if_neg h]

theorem timMergePass_spec {T : Type} [Inhabited T] (cmp : T → T → ℚ) (size : ℕ)
    (hs : 1 ≤ size) :
    ∀ (fuel : ℕ) (B A : List T), B.length < fuel →
      timMergePass cmp (A.length + B.length) size fuel (A ++ B) A.length =
        A ++ mergePassL cmp size B := by
  intro fuel
  induction fuel with
  | zero => intro B A hB; exact absurd hB (Nat.not_lt_zero _)
  | succ fuel ih =>
    intro B A hB
    rcases Nat.eq_zero_or_pos B.length with hB0 | hBpos
    · have hBnil : B = [] := List.length_eq_zero.1 hB0
      subst hBnil
      rw [timMergePass, if_neg (by simp)]
      simp [mergePassL_nil]
    · have hBne : B ≠ [] := by
        intro h; rw [h] at hBpos; simp at hBpos
      set n := A.length + B.length with hn
      have hlt : A.length < n := by omega
      simp only [timMergePass]
      rw [if_pos hlt]
      by_cases hmerge : A.length + size - 1 < min (A.length + size * 2 - 1) (n - 1)
      · -- the chunk is longer than `size`: the two halves are merged
        rw [if_pos hmerge]
        have hsz : size < B.length := by omega
        have hml : A.length ≤ A.length + size - 1 := by omega
        have hmr : min (A.length + size * 2 - 1) (n - 1) < (A ++ B).length := by
          simp only [List.length_append]; omega
        rw [merge_spec cmp (A ++ B) A.length (A.length + size - 1)
          (min (A.length + size * 2 - 1) (n - 1)) hml hmerge hmr]
        have htakeA : (A ++ B).take A.length = A := List.take_left A B
        have hdropA : (A ++ B).drop A.length = B := List.drop_left A B
        have hc1 : A.length + size - 1 + 1 - A.length = size := by omega
        have hLeq : ((A ++ B).drop A.length).take (A.length + size - 1 + 1 - A.length) =
            B.take size := by rw [hdropA, hc1]
        have hdropmid : (A ++ B).drop (A.length + size - 1 + 1) = B.drop size := by
          have h1 : A.length + size - 1 + 1 = A.length + size := by omega
          rw [h1, ← List.drop_drop, hdropA]
        have hc2 : min (A.length + size * 2 - 1) (n - 1) - (A.length + size - 1) =
            min size (B.length - size) := by omega
        have hReq : ((A ++ B).drop (A.length + size - 1 + 1)).take
            (min (A.length + size * 2 - 1) (n - 1) - (A.length + size - 1)) =
            (B.drop size).take size := by
          rw [hdropmid, hc2]
          rcases le_total (B.length - size) size with h | h
          · rw [min_eq_right h]
            have hlen : (B.drop size).length = B.length - size := by
              simp [List.length_drop]
            rw [← hlen, List.take_length, List.take_of_length_le (by omega)]
          · rw [min_eq_left h]
        have hdropend : (A ++ B).drop (min (A.length + size * 2 - 1) (n - 1) + 1) =
            B.drop (2 * size) := by
          have h1 : min (A.length + size * 2 - 1) (n - 1) + 1 =
              A.length + min (2 * size) B.length := by omega
          rw [h1, ← List.drop_drop, hdropA]
          rcases le_total B.length (2 * size) with h | h
          · rw [min_eq_right h, List.drop_length, List.drop_eq_nil_of_le h]
          · rw [min_eq_left h]
        rw [hLeq, hReq, hdropend, htakeA]
        -- recursion
        have hA2len : (A ++ mergeL cmp (B.take size) ((B.drop size).take size)).length =
            A.length + min (2 * size) B.length := by
          simp [mergeL_length, List.length_take, List.length_drop]
          omega
        have hfuel : (B.drop (2 * size)).length < fuel := by
          simp [List.length_drop]; omega
        have hstep := ih (B.drop (2 * size))
          (A ++ mergeL cmp (B.take size) ((B.drop size).take size)) hfuel
        rw [hA2len] at hstep
        have hcur : A.length + min (2 * size) B.length + (B.drop (2 * size)).length
            = n := by simp [List.length_drop]; omega
        rw [hcur] at hstep
        have hcur2 : A.length + min (2 * size) B.length = A.length + size * 2 ∨
            (B.drop (2 * size)) = [] := by
          rcases le_total B.length (2 * size) with h | h
          · right; exact List.drop_eq_nil_of_le h
          · left; rw [min_eq_left h]; omega
        -- align the cursor of the recursive call
        rcases hcur2 with hcur2 | hcur2
        · rw [hcur2] at hstep
          rw [hstep]
          rw [mergePassL_expand cmp size B hBne hs]
          have htk : (B.take (2 * size)).length = min (2 * size) B.length := by
            simp [List.length_take]
          have hif : size < (B.take (2 * size)).length := by rw [htk]; omega
          rw [if_pos hif, List.take_take, min_eq_left (by omega : size ≤ 2 * size),
            List.drop_take]
          have h2s : 2 * size - size = size := by omega
          rw [h2s]
          simp
        · -- the tail chunk is empty: both sides stop after this chunk
          rw [hcur2] at hstep ⊢
          have hble : B.length ≤ 2 * size := by
            by_contra hcon
            have : (B.drop (2 * size)).length = B.length - 2 * size := by
              simp [List.length_drop]
            rw [hcur2] at this
            simp at this
            omega
          have hmin : min (2 * size) B.length = B.length := min_eq_right hble
          rw [hmin] at hstep
          rw [List.append_nil] at hstep ⊢
          -- the cursor A.length + size * 2 is at least n: the loop stops
          rw [timMergePass_stop cmp n size fuel _ _ (by omega)]
          rw [mergePassL_expand cmp size B hBne hs, hcur2, mergePassL_nil]
          have htk : (B.take (2 * size)).length = B.length := by
            simp [List.length_take]; omega
          have hif : size < (B.take (2 * size)).length := by rw [htk]; omega
          rw [if_pos hif, List.take_take, min_eq_left (by omega : size ≤ 2 * size),
            List.drop_take]
          have h2s : 2 * size - size = size := by omega
          rw [h2s]
          simp
      · -- short chunk (length ≤ size): left unchanged
        have hsz : B.length ≤ size := by omega
        have harr : (A ++ B).drop (A.length + size * 2) = [] := by
          apply List.drop_eq_nil_of_le
          simp only [List.length_append]; omega
        rw [if_neg hmerge]
        rw [timMergePass_stop cmp n size fuel _ _ (by omega)]
        rw [mergePassL_expand cmp size B hBne hs]
        have htk : (B.take (2 * size)).length = B.length := by
          simp [List.length_take]; omega
        have hif : ¬ (size < (B.take (2 * size)).length) := by rw [htk]; omega
        rw [if_neg hif, List.take_of_length_le (by omega), List.drop_eq_nil_of_le
          (by omega), mergePassL_nil]
        simp

/-! ### Chunk-level theory: the run phase -/

theorem chunkSort_perm {T : Type} (cmp : T → T → ℚ) :
    ∀ (l : List T), (chunkSort cmp l).Perm l
  | [] => by rw [chunkSort_nil]
  | x :: xs => by
    rw [chunkSort_expand cmp _ (by simp)]
    have h1 := insertionSortL_perm cmp ((x :: xs).take 32)
    have h2 := chunkSort_perm cmp ((x :: xs).drop 32)
    exact (h1.append h2).trans (by rw [List.take_append_drop])
termination_by l => l.length
decreasing_by simp [List.length_drop]; omega

theorem chunkSort_length {T : Type} (cmp : T → T → ℚ) (l : List T) :
    (chunkSort cmp l).length = l.length :=
  (chunkSort_perm cmp l).length_eq

theorem drop_len_append {T : Type} (I K : List T) (n : ℕ) (h : I.length = n) :
    (I ++ K).drop n = K := by
  rw [← h, List.drop_left]

theorem chunkSort_chunksSorted {T : Type} {cmp : T → T → ℚ}
    (htot : CmpTotal cmp) (htrans : CmpTrans cmp) :
    ∀ (l : List T), ChunksSorted cmp 32 (chunkSort cmp l)
  | [] => by
    intro m
    rw [chunkSort_nil]
    simp
  | x :: xs => by
    rw [chunkSort_expand cmp _ (by simp)]
    have hIlen : (insertionSortL cmp ((x :: xs).take 32)).length =
        min 32 (x :: xs).length := by
      rw [insertionSortL_length, List.length_take]
    intro m
    cases m with
    | zero =>
      simp only [Nat.zero_mul, List.drop_zero]
      have htk : (insertionSortL cmp ((x :: xs).take 32) ++
          chunkSort cmp ((x :: xs).drop 32)).take 32 =
          insertionSortL cmp ((x :: xs).take 32) ++
            ((chunkSort cmp ((x :: xs).drop 32)).take (32 - min 32 (x :: xs).length)) := by
        rw [List.take_append_eq_append_take, hIlen,
          List.take_of_length_le (by rw [hIlen]; omega)]
      rw [htk]
      rcases le_or_lt (x :: xs).length 32 with h | h
      · have : (x :: xs).drop 32 = [] := List.drop_eq_nil_of_le h
        rw [this, chunkSort_nil]
        simpa using insertionSortL_sorted htot htrans ((x :: xs).take 32)
      · have h0 : 32 - min 32 (x :: xs).length = 0 := by omega
        rw [h0, List.take_zero, List.append_nil]
        exact insertionSortL_sorted htot htrans ((x :: xs).take 32)
    | succ m =>
      rcases le_or_lt (x :: xs).length 32 with h | h
      · have hnil : (x :: xs).drop 32 = [] := List.drop_eq_nil_of_le h
        rw [hnil, chunkSort_nil, List.append_nil]
        have : (insertionSortL cmp ((x :: xs).take 32)).drop ((m + 1) * 32) = [] := by
          apply List.drop_eq_nil_of_le
          rw [hIlen]
          have : (m + 1) * 32 = m * 32 + 32 := by ring
          omega
        rw [this]
        simp
      · have h32 : (insertionSortL cmp ((x :: xs).take 32)).length = 32 := by
          rw [hIlen]; omega
        have hdrop : (insertionSortL cmp ((x :: xs).take 32) ++
            chunkSort cmp ((x :: xs).drop 32)).drop ((m + 1) * 32) =
            (chunkSort cmp ((x :: xs).drop 32)).drop (m * 32) := by
          have he : (m + 1) * 32 = 32 + m * 32 := by ring
          rw [he, ← List.drop_drop]
          congr 1
          exact drop_len_append _ _ 32 h32
        rw [hdrop]
        exact chunkSort_chunksSorted htot htrans ((x :: xs).drop 32) m
termination_by l => l.length
decreasing_by simp [List.length_drop]; omega

theorem chunkSort_stable {T : Type} {cmp : T → T → ℚ}
    (htot : CmpTotal cmp) (htrans : CmpTrans cmp) :
    ∀ (l lsub : List T), lsub.Sublist l → List.Pairwise (cle cmp) lsub →
      lsub.Sublist (chunkSort cmp l)
  | [], lsub, hsub, _ => by rw [chunkSort_nil]; exact hsub
  | x :: xs, lsub, hsub, hpair => by
    rw [chunkSort_expand cmp _ (by simp)]
    rw [show (x :: xs) = (x :: xs).take 32 ++ (x :: xs).drop 32 from
      (List.take_append_drop 32 (x :: xs)).symm] at hsub
    rw [List.sublist_append_iff] at hsub
    obtain ⟨u, v, rfl, hu, hv⟩ := hsub
    rw [List.pairwise_append] at hpair
    refine List.Sublist.append ?_ ?_
    · exact insertionSortL_stable htot htrans _ u hu hpair.1
    · exact chunkSort_stable htot htrans ((x :: xs).drop 32) v hv hpair.2.1
termination_by l _ _ _ => l.length
decreasing_by simp [List.length_drop]; omega

/-! ### Chunk-level theory: one merge pass -/

theorem mergePassL_perm {T : Type} (cmp : T → T → ℚ) (size : ℕ) (hs : 1 ≤ size) :
    ∀ (l : List T), (mergePassL cmp size l).Perm l
  | [] => by rw [mergePassL_nil]
  | x :: xs => by
    rw [mergePassL_expand cmp size _ (by simp) hs]
    have h2 := mergePassL_perm cmp size hs ((x :: xs).drop (2 * size))
    have h1 : (if size < ((x :: xs).take (2 * size)).length then
        mergeL cmp (((x :: xs).take (2 * size)).take size)
          (((x :: xs).take (2 * size)).drop size)
      else (x :: xs).take (2 * size)).Perm ((x :: xs).take (2 * size)) := by
      split
      · exact (mergeL_perm cmp _ _).trans (by rw [List.take_append_drop])
      · exact List.Perm.refl _
    exact (h1.append h2).trans (by rw [List.take_append_drop])
termination_by l => l.length
decreasing_by simp [List.length_drop]; omega

theorem mergePassL_length {T : Type} (cmp : T → T → ℚ) (size : ℕ) (hs : 1 ≤ size)
    (l : List T) : (mergePassL cmp size l).length = l.length :=
  (mergePassL_perm cmp size hs l).length_eq

theorem chunksSorted_drop {T : Type} {cmp : T → T → ℚ} {s : ℕ} {l : List T}
    (h : ChunksSorted cmp s l) (k : ℕ) : ChunksSorted cmp s (l.drop (k * s)) := by
  intro m
  rw [List.drop_drop]
  have he : k * s + m * s = (k + m) * s := by ring
  rw [he]
  exact h (k + m)

theorem mergePassL_chunksSorted {T : Type} {cmp : T → T → ℚ}
    (htot : CmpTotal cmp) (htrans : CmpTrans cmp) (size : ℕ) (hs : 1 ≤ size) :
    ∀ (l : List T), ChunksSorted cmp size l →
      ChunksSorted cmp (2 * size) (mergePassL cmp size l)
  | [], _ => by
    intro m
    rw [mergePassL_nil]
    simp
  | x :: xs, hcs => by
    rw [mergePassL_expand cmp size _ (by simp) hs]
    set C := (x :: xs).take (2 * size) with hC
    have hCs : List.Pairwise (cle cmp)
        (if size < C.length then mergeL cmp (C.take size) (C.drop size) else C) := by
      split
      · rename_i hlt
        have hL : C.take size = (x :: xs).take size := by
          rw [hC, List.take_take, min_eq_left (by omega)]
        have hR : C.drop size = ((x :: xs).drop size).take size := by
          rw [hC, List.drop_take]
          congr 1
          omega
        have hLs : List.Pairwise (cle cmp) (C.take size) := by
          rw [hL]
          have := hcs 0
          simpa using this
        have hRs : List.Pairwise (cle cmp) (C.drop size) := by
          rw [hR]
          have := hcs 1
          simpa using this
        exact mergeL_sorted htot htrans _ _ hLs hRs
      · rename_i hge
        have hCl : C.length = min (2 * size) (x :: xs).length := by
          rw [hC, List.length_take]
        have hlen : (x :: xs).length ≤ size := by omega
        have hCfull : C = (x :: xs).take size := by
          rw [hC, List.take_of_length_le (by omega), List.take_of_length_le hlen]
        rw [hCfull]
        have := hcs 0
        simpa using this
    have hClen : (if size < C.length then mergeL cmp (C.take size) (C.drop size)
        else C).length = C.length := by
      split
      · rw [mergeL_length]
        simp only [List.length_take, List.length_drop]
        omega
      · rfl
    intro m
    cases m with
    | zero =>
      simp only [Nat.zero_mul, List.drop_zero]
      rw [List.take_append_eq_append_take]
      have hC2 : C.length ≤ 2 * size := by rw [hC]; simp [List.length_take]
      rw [List.take_of_length_le (by omega)]
      rcases le_or_lt (x :: xs).length (2 * size) with h | h
      · have hnil : (x :: xs).drop (2 * size) = [] := List.drop_eq_nil_of_le h
        rw [hnil, mergePassL_nil]
        simpa using hCs
      · have hClen2 : C.length = 2 * size := by
          rw [hC]; simp only [List.length_take]; omega
        have h0 : 2 * size - (if size < C.length then
            mergeL cmp (C.take size) (C.drop size) else C).length = 0 := by
          rw [hClen, hClen2]
          omega
        rw [h0, List.take_zero, List.append_nil]
        exact hCs
    | succ m =>
      rcases le_or_lt (x :: xs).length (2 * size) with h | h
      · have hnil : (x :: xs).drop (2 * size) = [] := List.drop_eq_nil_of_le h
        rw [hnil, mergePassL_nil, List.append_nil]
        have hdnil : (if size < C.length then mergeL cmp (C.take size) (C.drop size)
            else C).drop ((m + 1) * (2 * size)) = [] := by
          apply List.drop_eq_nil_of_le
          rw [hClen]
          have h1 : C.length ≤ 2 * size := by rw [hC]; simp [List.length_take]
          have h2 : 2 * size ≤ (m + 1) * (2 * size) := by
            have : (m + 1) * (2 * size) = m * (2 * size) + 2 * size := by ring
            omega
          omega
        rw [hdnil]
        simp
      · have hClen2 : (if size < C.length then mergeL cmp (C.take size) (C.drop size)
            else C).length = 2 * size := by
          rw [hClen, hC]; simp only [List.length_take]; omega
        have hdrop : ((if size < C.length then mergeL cmp (C.take size) (C.drop size)
            else C) ++ mergePassL cmp size ((x :: xs).drop (2 * size))).drop
            ((m + 1) * (2 * size)) =
            (mergePassL cmp size ((x :: xs).drop (2 * size))).drop (m * (2 * size)) := by
          have he : (m + 1) * (2 * size) = 2 * size + m * (2 * size) := by ring
          rw [he, ← List.drop_drop]
          congr 1
          exact drop_len_append _ _ (2 * size) hClen2
        rw [hdrop]
        have hcs2 : ChunksSorted cmp size ((x :: xs).drop (2 * size)) :=
          chunksSorted_drop hcs 2
        exact mergePassL_chunksSorted htot htrans size hs ((x :: xs).drop (2 * size))
          hcs2 m
termination_by l _ => l.length
decreasing_by simp [List.length_drop]; omega

theorem mergePassL_stable {T : Type} {cmp : T → T → ℚ}
    (htrans : CmpTrans cmp) (size : ℕ) (hs : 1 ≤ size) :
    ∀ (l lsub : List T), ChunksSorted cmp size l → lsub.Sublist l →
      List.Pairwise (cle cmp) lsub → lsub.Sublist (mergePassL cmp size l)
  | [], lsub, _, hsub, _ => by rw [mergePassL_nil]; exact hsub
  | x :: xs, lsub, hcs, hsub, hpair => by
    rw [mergePassL_expand cmp size _ (by simp) hs]
    rw [show (x :: xs) = (x :: xs).take (2 * size) ++ (x :: xs).drop (2 * size) from
      (List.take_append_drop (2 * size) (x :: xs)).symm] at hsub
    rw [List.sublist_append_iff] at hsub
    obtain ⟨u, v, rfl, hu, hv⟩ := hsub
    rw [List.pairwise_append] at hpair
    refine List.Sublist.append ?_ ?_
    · set C := (x :: xs).take (2 * size) with hC
      split
      · rename_i hlt
        have hL : C.take size = (x :: xs).take size := by
          rw [hC, List.take_take, min_eq_left (by omega)]
        have hLs : List.Pairwise (cle cmp) (C.take size) := by
          rw [hL]
          have := hcs 0
          simpa using this
        exact mergeL_stable htrans (C.take size) (C.drop size) u hLs
          (by rwa [List.take_append_drop]) hpair.1
      · exact hu
    · have hcs2 : ChunksSorted cmp size ((x :: xs).drop (2 * size)) :=
        chunksSorted_drop hcs 2
      exact mergePassL_stable htrans size hs ((x :: xs).drop (2 * size)) v hcs2 hv
        hpair.2.1
termination_by l _ _ _ _ => l.length
decreasing_by simp [List.length_drop]; omega

/-! ### The size-doubling loop and the `timSort` results -/

theorem timMergeAll_perm {T : Type} [Inhabited T] (cmp : T → T → ℚ) :
    ∀ (fuel size : ℕ) (arr : List T), 1 ≤ size → arr.length ≤ size + fuel →
      (timMergeAll cmp arr.length fuel arr size).Perm arr
  | 0, size, arr, _, _ => List.Perm.refl arr
  | fuel + 1, size, arr, hs, hf => by
    by_cases hlt : size < arr.length
    · rw [timMergeAll, if_pos hlt]
      have hb := timMergePass_spec cmp size hs (arr.length + 1) arr [] (by simp)
      simp only [List.nil_append, List.length_nil, Nat.zero_add] at hb
      rw [hb]
      have hlen : (mergePassL cmp size arr).length = arr.length :=
        mergePassL_length cmp size hs arr
      rw [← hlen]
      exact (timMergeAll_perm cmp fuel (size * 2) (mergePassL cmp size arr)
        (by omega) (by omega)).trans (mergePassL_perm cmp size hs arr)
    · rw [timMergeAll, if_neg hlt]

theorem timMergeAll_sorted_stable {T : Type} [Inhabited T] {cmp : T → T → ℚ}
    (htot : CmpTotal cmp) (htrans : CmpTrans cmp) :
    ∀ (fuel size : ℕ) (arr : List T), 1 ≤ size → arr.length ≤ size + fuel →
      ChunksSorted cmp size arr →
      List.Pairwise (cle cmp) (timMergeAll cmp arr.length fuel arr size) ∧
      (∀ lsub, lsub.Sublist arr → List.Pairwise (cle cmp) lsub →
        lsub.Sublist (timMergeAll cmp arr.length fuel arr size))
  | 0, size, arr, hs, hf, hcs => by
    constructor
    · show List.Pairwise (cle cmp) arr
      have := hcs 0
      simpa [List.take_of_length_le (by omega : arr.length ≤ size)] using this
    · intro lsub hsub _
      exact hsub
  | fuel + 1, size, arr, hs, hf, hcs => by
    by_cases hlt : size < arr.length
    · rw [timMergeAll, if_pos hlt]
      have hb := timMergePass_spec cmp size hs (arr.length + 1) arr [] (by simp)
      simp only [List.nil_append, List.length_nil, Nat.zero_add] at hb
      rw [hb]
      have hlen : (mergePassL cmp size arr).length = arr.length :=
        mergePassL_length cmp size hs arr
      have hcs2 : ChunksSorted cmp (size * 2) (mergePassL cmp size arr) := by
        rw [Nat.mul_comm]
        exact mergePassL_chunksSorted htot htrans size hs arr hcs
      have hmain := timMergeAll_sorted_stable htot htrans fuel (size * 2)
        (mergePassL cmp size arr) (by omega) (by omega) hcs2
      rw [hlen] at hmain
      refine ⟨hmain.1, ?_⟩
      intro lsub hsub hpair
      exact hmain.2 lsub (mergePassL_stable htrans size hs arr lsub hcs hsub hpair)
        hpair
    · rw [timMergeAll, if_neg hlt]
      constructor
      · have := hcs 0
        simpa [List.take_of_length_le (by omega : arr.length ≤ size)] using this
      · intro lsub hsub _
        exact hsub

theorem timSort_eq {T : Type} [Inhabited T] (cmp : T → T → ℚ) (l : List T) :
    timSort cmp l = timMergeAll cmp l.length (l.length + 1) (chunkSort cmp l) 32 := by
  have hd : timSort cmp l =
      timMergeAll cmp l.length (l.length + 1) (timRuns cmp l.length l 0) 32 := rfl
  rw [hd]
  have hruns := timRuns_spec cmp l.length l [] (le_refl _)
  simp only [List.nil_append, List.length_nil, Nat.zero_add] at hruns
  rw [hruns]

/-- `timSort` returns a permutation of its input, for every comparator. -/
theorem timSort_perm {T : Type} [Inhabited T] (cmp : T → T → ℚ) (l : List T) :
    (timSort cmp l).Perm l := by
  rw [timSort_eq]
  have hlen : (chunkSort cmp l).length = l.length := chunkSort_length cmp l
  rw [← hlen]
  exact (timMergeAll_perm cmp ((chunkSort cmp l).length + 1) 32 (chunkSort cmp l)
    (by omega) (by omega)).trans (chunkSort_perm cmp l)

/-- For a consistent comparator, `timSort`'s output is ordered by it. -/
theorem timSort_sorted {T : Type} [Inhabited T] {cmp : T → T → ℚ}
    (htot : CmpTotal cmp) (htrans : CmpTrans cmp) (l : List T) :
    List.Pairwise (cle cmp) (timSort cmp l) := by
  rw [timSort_eq]
  have hlen : (chunkSort cmp l).length = l.length := chunkSort_length cmp l
  rw [← hlen]
  exact (timMergeAll_sorted_stable htot htrans ((chunkSort cmp l).length + 1) 32
    (chunkSort cmp l) (by omega) (by omega)
    (chunkSort_chunksSorted htot htrans l)).1

/-- For a consistent comparator, `timSort` is stable: any sorted sublist of
the input (in particular, any chain of elements comparing equal) is still a
sublist of the output. -/
theorem timSort_stable {T : Type} [Inhabited T] {cmp : T → T → ℚ}
    (htot : CmpTotal cmp) (htrans : CmpTrans cmp) (l lsub : List T)
    (hsub : lsub.Sublist l) (hpair : List.Pairwise (cle cmp) lsub) :
    lsub.Sublist (timSort cmp l) := by
  rw [timSort_eq]
  have hlen : (chunkSort cmp l).length = l.length := chunkSort_length cmp l
  rw [← hlen]
  exact (timMergeAll_sorted_stable htot htrans ((chunkSort cmp l).length + 1) 32
    (chunkSort cmp l) (by omega) (by omega)
    (chunkSort_chunksSorted htot htrans l)).2 lsub
    (chunkSort_stable htot htrans l lsub hsub hpair) hpair


/-! ### Swap machinery for `partition` -/

theorem take_len_append {T : Type} (I K : List T) (n : ℕ) (h : I.length = n) :
    (I ++ K).take n = I := by
  rw [← h, List.take_left]

/-- Any list splits around two positions `i < j`. -/
theorem splice_at_two {T : Type} [Inhabited T] (arr : List T) (i j : ℕ)
    (hij : i < j) (hj : j < arr.length) :
    ∃ (A M D : List T) (a b : T), arr = A ++ a :: (M ++ b :: D) ∧
      A.length = i ∧ (A ++ a :: M).length = j := by
  refine ⟨arr.take i, (arr.drop (i + 1)).take (j - i - 1), arr.drop (j + 1),
    arr.getD i default, arr.getD j default, ?_, ?_, ?_⟩
  · rw [List.getD_eq_getElem arr default (by omega), List.getD_eq_getElem arr default hj]
    conv_lhs => rw [← List.take_append_drop i arr]
    rw [List.drop_eq_getElem_cons (show i < arr.length by omega)]
    congr 1
    congr 1
    conv_lhs => rw [← List.take_append_drop (j - i - 1) (arr.drop (i + 1))]
    rw [List.drop_drop]
    congr 1
    rw [show i + 1 + (j - i - 1) = j by omega]
    exact List.drop_eq_getElem_cons hj
  · simp [List.length_take]; omega
  · simp [List.length_take, List.length_drop]; omega

/-- `swapL` on a list spliced at the two swap positions. -/
theorem swapL_splice {T : Type} [Inhabited T] (A M D : List T) (a b : T) :
    swapL (A ++ a :: (M ++ b :: D)) A.length (A ++ a :: M).length =
      A ++ b :: (M ++ a :: D) := by
  have h1 : A ++ a :: (M ++ b :: D) = (A ++ a :: M) ++ b :: D := by simp
  have hg1 : (A ++ a :: (M ++ b :: D)).getD (A ++ a :: M).length default = b := by
    rw [h1, getD_at]
  have hg2 : (A ++ a :: (M ++ b :: D)).getD A.length default = a :=
    getD_at A (M ++ b :: D) a default
  show ((A ++ a :: (M ++ b :: D)).set A.length
      ((A ++ a :: (M ++ b :: D)).getD (A ++ a :: M).length default)).set
      (A ++ a :: M).length ((A ++ a :: (M ++ b :: D)).getD A.length default) =
    A ++ b :: (M ++ a :: D)
  rw [hg1, hg2, set_at]
  have h2 : A ++ b :: (M ++ b :: D) = (A ++ b :: M) ++ b :: D := by simp
  have h3 : (A ++ a :: M).length = (A ++ b :: M).length := by simp
  rw [h2, h3, set_at]
  simp

theorem swapL_self {T : Type} [Inhabited T] (arr : List T) (i : ℕ)
    (hi : i < arr.length) : swapL arr i i = arr := by
  have key : ∀ (A D : List T) (a : T),
      swapL (A ++ a :: D) A.length A.length = A ++ a :: D := by
    intro A D a
    show (((A ++ a :: D).set A.length ((A ++ a :: D).getD A.length default)).set
      A.length ((A ++ a :: D).getD A.length default)) = A ++ a :: D
    rw [getD_at, set_at, set_at]
  obtain ⟨A, D, a, harr, hA⟩ : ∃ A D a, arr = A ++ a :: D ∧ A.length = i := by
    refine ⟨arr.take i, arr.drop (i + 1), arr.getD i default, ?_,
      by simp [List.length_take]; omega⟩
    rw [List.getD_eq_getElem arr default hi]
    conv_lhs => rw [← List.take_append_drop i arr]
    rw [List.drop_eq_getElem_cons hi]
  conv_lhs => rw [harr, ← hA]
  rw [harr]
  exact key A D a

/-- Swapping two positions inside `[low, high]` keeps the length, permutes
the elements, and leaves `take low` and `drop (high+1)` unchanged. -/
theorem swapL_within {T : Type} [Inhabited T] (arr : List T) (i j low high : ℕ)
    (hli : low ≤ i) (hij : i ≤ j) (hjh : j ≤ high) (hh : high < arr.length) :
    (swapL arr i j).length = arr.length ∧ (swapL arr i j).Perm arr ∧
      (swapL arr i j).take low = arr.take low ∧
      (swapL arr i j).drop (high + 1) = arr.drop (high + 1) := by
  rcases Nat.lt_or_ge i j with hlt | hge
  · obtain ⟨A, M, D, a, b, harr, hA, hAM⟩ := splice_at_two arr i j hlt (by omega)
    have hswap : swapL arr i j = A ++ b :: (M ++ a :: D) := by
      conv_lhs => rw [harr, ← hA, ← hAM]
      exact swapL_splice A M D a b
    refine ⟨?_, ?_, ?_, ?_⟩
    · rw [hswap]
      conv_rhs => rw [harr]
      simp
    · rw [hswap]
      conv_rhs => rw [harr]
      refine List.Perm.append_left A ?_
      exact (List.Perm.cons b List.perm_middle).trans
        ((List.Perm.swap a b (M ++ D)).trans
          (List.Perm.cons a List.perm_middle.symm))
    · rw [hswap]
      conv_rhs => rw [harr]
      rw [List.take_append_eq_append_take, List.take_append_eq_append_take]
      rw [show low - A.length = 0 by omega]
      simp
    · rw [hswap]
      conv_rhs => rw [harr]
      have hb : A ++ b :: (M ++ a :: D) = (A ++ b :: M) ++ a :: D := by simp
      have ha : A ++ a :: (M ++ b :: D) = (A ++ a :: M) ++ b :: D := by simp
      conv_lhs => rw [hb, List.drop_append_eq_append_drop]
      conv_rhs => rw [ha, List.drop_append_eq_append_drop]
      have hl1 : (A ++ b :: M).length = j := by
        simp only [List.length_append, List.length_cons] at hAM ⊢
        omega
      rw [hl1, hAM]
      conv_lhs => rw [List.drop_eq_nil_of_le
        (show (A ++ b :: M).length ≤ high + 1 by rw [hl1]; omega)]
      conv_rhs => rw [List.drop_eq_nil_of_le
        (show (A ++ a :: M).length ≤ high + 1 by rw [hAM]; omega)]
      obtain ⟨m, hm⟩ : ∃ m, high + 1 - j = m + 1 := ⟨high - j, by omega⟩
      rw [hm, List.drop_succ_cons, List.drop_succ_cons]
  · have hii : i = j := by omega
    subst hii
    rw [swapL_self arr i (by omega)]
    exact ⟨rfl, List.Perm.refl arr, rfl, rfl⟩

/-- A conditional within-segment swap preserves `sameOutside`. -/
theorem swap_step_within {T : Type} [Inhabited T] (arrm arr : List T)
    (c : Prop) [Decidable c] (i j low high : ℕ) (hli : low ≤ i) (hij : i ≤ j)
    (hjh : j ≤ high) (hh : high < arr.length)
    (hso : sameOutside low high arrm arr) :
    sameOutside low high (if c then swapL arrm i j else arrm) arr := by
  obtain ⟨hlen, hperm, htake, hdrop⟩ := hso
  by_cases hc : c
  · rw [if_pos hc]
    obtain ⟨h1, h2, h3, h4⟩ := swapL_within arrm i j low high hli hij hjh (by omega)
    exact ⟨h1.trans hlen, h2.trans hperm, h3.trans htake, h4.trans hdrop⟩
  · rw [if_neg hc]
    exact ⟨hlen, hperm, htake, hdrop⟩

theorem sameOutside_refl {T : Type} (low high : ℕ) (arr : List T) :
    sameOutside low high arr arr := ⟨rfl, List.Perm.refl arr, rfl, rfl⟩

/-- Lists that agree outside `[low, high]` and are permutations of each
other have permuted `[low, high]` segments. -/
theorem seg_perm_of_sameOutside {T : Type} (low high : ℕ) (x arr : List T)
    (hso : sameOutside low high x arr) (hlow : low ≤ high + 1) :
    ((x.drop low).take (high + 1 - low)).Perm
      ((arr.drop low).take (high + 1 - low)) := by
  obtain ⟨hlen, hperm, htake, hdrop⟩ := hso
  have hx : x = x.take low ++ ((x.drop low).take (high + 1 - low) ++
      x.drop (high + 1)) := by
    conv_lhs => rw [← List.take_append_drop low x]
    congr 1
    conv_lhs => rw [← List.take_append_drop (high + 1 - low) (x.drop low)]
    rw [List.drop_drop, show low + (high + 1 - low) = high + 1 by omega]
  have harr : arr = arr.take low ++ ((arr.drop low).take (high + 1 - low) ++
      arr.drop (high + 1)) := by
    conv_lhs => rw [← List.take_append_drop low arr]
    congr 1
    conv_lhs => rw [← List.take_append_drop (high + 1 - low) (arr.drop low)]
    rw [List.drop_drop, show low + (high + 1 - low) = high + 1 by omega]
  have hp2 := hperm
  rw [hx, harr, htake, hdrop] at hp2
  have hp3 := (List.perm_append_left_iff (arr.take low)).1 hp2
  exact (List.perm_append_right_iff (arr.drop (high + 1))).1 hp3

/-! ### The Lomuto scan -/

/-- Invariant of `partitionLoop`: the scanned region splits as
`X` (≤ pivot) followed by `Y` (> pivot); one step moves the head of the
unscanned `W` into `X` (swapping it across `Y`) or appends it to `Y`. -/
theorem partitionLoop_spec {T : Type} [Inhabited T] (cmp : T → T → ℚ) (piv : T) :
    ∀ (W X Y U Q : List T),
      (∀ x ∈ X, cmp x piv ≤ 0) → (∀ y ∈ Y, 0 < cmp y piv) →
      ∃ X2 Y2,
        partitionLoop cmp piv (U.length + X.length + Y.length + W.length)
            (U ++ X ++ Y ++ W ++ Q) (U.length + X.length)
            (U.length + X.length + Y.length) =
          (U ++ X2 ++ Y2 ++ Q, U.length + X2.length) ∧
        (X2 ++ Y2).Perm (X ++ Y ++ W) ∧
        (∀ x ∈ X2, cmp x piv ≤ 0) ∧ (∀ y ∈ Y2, 0 < cmp y piv) := by
  intro W
  induction W with
  | nil =>
    intro X Y U Q hX hY
    refine ⟨X, Y, ?_, by simp, hX, hY⟩
    rw [partitionLoop, dif_neg (by simp)]
    simp
  | cons w W' ih =>
    intro X Y U Q hX hY
    have hget : (U ++ X ++ Y ++ (w :: W') ++ Q).getD
        (U.length + X.length + Y.length) default = w := by
      have hsh : U ++ X ++ Y ++ (w :: W') ++ Q = (U ++ X ++ Y) ++ w :: (W' ++ Q) := by
        simp
      have hl : (U ++ X ++ Y).length = U.length + X.length + Y.length := by simp only [List.length_append, List.length_cons, List.length_nil]
      rw [hsh, ← hl, getD_at]
    rw [partitionLoop, dif_pos (by simp only [List.length_cons]; omega), hget]
    by_cases hc : cmp w piv ≤ 0
    · rw [if_pos hc]
      have hX2 : ∀ x ∈ X ++ [w], cmp x piv ≤ 0 := by
        intro x hx
        rcases List.mem_append.1 hx with h | h
        · exact hX x h
        · rw [List.mem_singleton] at h; rw [h]; exact hc
      cases Y with
      | nil =>
        rw [show U.length + X.length + List.length ([] : List T) =
          U.length + X.length by simp]
        rw [swapL_self (U ++ X ++ [] ++ (w :: W') ++ Q) (U.length + X.length)
          (by simp only [List.append_nil, List.length_append, List.length_cons]; omega)]
        obtain ⟨X2, Y2, heq, hperm, h1, h2⟩ := ih (X ++ [w]) [] U Q hX2 (by simp)
        simp only [List.length_nil, Nat.add_zero, List.append_nil] at heq
        refine ⟨X2, Y2, ?_, ?_, h1, h2⟩
        · rw [show U ++ X ++ [] ++ (w :: W') ++ Q = U ++ (X ++ [w]) ++ W' ++ Q
            by simp]
          rw [show U.length + X.length + (w :: W').length =
            U.length + (X ++ [w]).length + W'.length by simp only [List.length_append, List.length_cons, List.length_nil]; omega]
          rw [show U.length + X.length + 1 = U.length + (X ++ [w]).length by
            simp only [List.length_append, List.length_cons, List.length_nil]; omega]
          exact heq
        · refine hperm.trans ?_
          have h5 : (X ++ [w]) ++ [] ++ W' = X ++ [] ++ (w :: W') := by simp
          rw [h5]
      | cons y Y' =>
        have hswap : swapL (U ++ X ++ (y :: Y') ++ (w :: W') ++ Q)
            (U.length + X.length) (U.length + X.length + (y :: Y').length) =
            U ++ (X ++ [w]) ++ (Y' ++ [y]) ++ W' ++ Q := by
          rw [show U.length + X.length + (y :: Y').length =
            ((U ++ X) ++ y :: Y').length by simp only [List.length_append, List.length_cons, List.length_nil]]
          rw [show U.length + X.length = (U ++ X).length by simp only [List.length_append, List.length_cons, List.length_nil]]
          rw [show U ++ X ++ (y :: Y') ++ (w :: W') ++ Q =
            (U ++ X) ++ y :: (Y' ++ w :: (W' ++ Q)) by simp]
          rw [swapL_splice]
          simp
        rw [hswap]
        have hY2 : ∀ z ∈ Y' ++ [y], 0 < cmp z piv := by
          intro z hz
          rcases List.mem_append.1 hz with h | h
          · exact hY z (by simp [h])
          · rw [List.mem_singleton] at h; rw [h]; exact hY y (by simp)
        obtain ⟨X2, Y2, heq, hperm, h1, h2⟩ := ih (X ++ [w]) (Y' ++ [y]) U Q hX2 hY2
        refine ⟨X2, Y2, ?_, ?_, h1, h2⟩
        · rw [show U.length + X.length + (y :: Y').length + (w :: W').length =
            U.length + (X ++ [w]).length + (Y' ++ [y]).length + W'.length
            by simp only [List.length_append, List.length_cons, List.length_nil]; omega]
          rw [show U.length + X.length + 1 = U.length + (X ++ [w]).length by
            simp only [List.length_append, List.length_cons, List.length_nil]; omega]
          rw [show U.length + X.length + (y :: Y').length + 1 =
            U.length + (X ++ [w]).length + (Y' ++ [y]).length by simp only [List.length_append, List.length_cons, List.length_nil]; omega]
          exact heq
        · refine hperm.trans ?_
          have h6 : (X ++ [w]) ++ (Y' ++ [y]) ++ W' =
              X ++ (w :: (Y' ++ y :: W')) := by simp
          have h7 : X ++ (y :: Y') ++ (w :: W') = X ++ (y :: (Y' ++ w :: W')) := by
            simp
          rw [h6, h7]
          refine List.Perm.append_left X ?_
          exact (List.Perm.cons w List.perm_middle).trans
            ((List.Perm.swap y w (Y' ++ W')).trans
              (List.Perm.cons y List.perm_middle.symm))
    · rw [if_neg hc]
      have hY2 : ∀ z ∈ Y ++ [w], 0 < cmp z piv := by
        intro z hz
        rcases List.mem_append.1 hz with h | h
        · exact hY z h
        · rw [List.mem_singleton] at h; rw [h]; exact not_le.mp hc
      obtain ⟨X2, Y2, heq, hperm, h1, h2⟩ := ih X (Y ++ [w]) U Q hX hY2
      refine ⟨X2, Y2, ?_, ?_, h1, h2⟩
      · rw [show U ++ X ++ Y ++ (w :: W') ++ Q = U ++ X ++ (Y ++ [w]) ++ W' ++ Q
          by simp]
        rw [show U.length + X.length + Y.length + (w :: W').length =
          U.length + X.length + (Y ++ [w]).length + W'.length by simp only [List.length_append, List.length_cons, List.length_nil]; omega]
        rw [show U.length + X.length + Y.length + 1 =
          U.length + X.length + (Y ++ [w]).length by simp only [List.length_append, List.length_cons, List.length_nil]; omega]
        exact heq
      · refine hperm.trans ?_
        have h5 : X ++ (Y ++ [w]) ++ W' = X ++ Y ++ (w :: W') := by simp
        rw [h5]

/-! ### `partition` -/

/-- The pivot-move / scan / final-swap stage of `partition`: it produces a
splice `take low ++ xs ++ piv :: ys ++ drop (high+1)` with `xs` the `≤ pivot`
block and `ys` the `> pivot` block, returns the pivot position
`low + xs.length`, and permutes exactly the `[low, high]` segment. -/
theorem partitionCore_spec {T : Type} [Inhabited T] (cmp : T → T → ℚ)
    (arrm arr : List T) (low high mid : ℕ) (hm1 : low ≤ mid) (hm2 : mid ≤ high)
    (hh : high < arr.length) (hso : sameOutside low high arrm arr) :
    ∃ (xs ys : List T) (piv : T),
      (partitionCore cmp arrm low high mid).1 =
        arr.take low ++ (xs ++ (piv :: (ys ++ arr.drop (high + 1)))) ∧
      (partitionCore cmp arrm low high mid).2 = low + xs.length ∧
      (xs ++ piv :: ys).Perm ((arr.drop low).take (high + 1 - low)) ∧
      (∀ x ∈ xs, cmp x piv ≤ 0) ∧ (∀ y ∈ ys, 0 < cmp y piv) := by
  obtain ⟨hlen, hperm, htake, hdrop⟩ := hso
  have hhm : high < arrm.length := by omega
  obtain ⟨h4len, h4perm, h4take, h4drop⟩ :=
    swapL_within arrm mid high low high hm1 hm2 (le_refl high) hhm
  obtain ⟨V, D1, hVdec, hVlen⟩ : ∃ V D1,
      swapL arrm mid high = V ++ (arrm.getD mid default :: D1) ∧ V.length = high := by
    rcases Nat.lt_or_ge mid high with hlt | hge
    · obtain ⟨A, M, D, a, b, harrm, hA, hAM⟩ := splice_at_two arrm mid high hlt hhm
      have hpivv : arrm.getD mid default = a := by
        rw [harrm, ← hA]
        exact getD_at A (M ++ b :: D) a default
      have hs : swapL arrm mid high = A ++ b :: (M ++ a :: D) := by
        conv_lhs => rw [harrm, ← hA, ← hAM]
        exact swapL_splice A M D a b
      refine ⟨A ++ b :: M, D, ?_, ?_⟩
      · rw [hs, hpivv]
        simp
      · simp only [List.length_append, List.length_cons] at hAM ⊢
        omega
    · rw [show high = mid by omega]
      rw [swapL_self arrm mid (by omega)]
      refine ⟨arrm.take mid, arrm.drop (mid + 1), ?_,
        by simp only [List.length_take]; omega⟩
      rw [List.getD_eq_getElem arrm default (by omega)]
      conv_lhs => rw [← List.take_append_drop mid arrm]
      rw [List.drop_eq_getElem_cons (show mid < arrm.length by omega)]
  have hD1 : D1 = arr.drop (high + 1) := by
    have h1 : (swapL arrm mid high).drop (high + 1) = D1 := by
      rw [hVdec, show V ++ (arrm.getD mid default :: D1) =
        (V ++ [arrm.getD mid default]) ++ D1 by simp]
      exact drop_len_append _ _ _
        (by simp only [List.length_append, List.length_cons, List.length_nil]; omega)
    rw [← h1, h4drop, hdrop]
  have hUW : V.take low ++ V.drop low = V := List.take_append_drop low V
  have hUlen : (V.take low).length = low := by simp only [List.length_take]; omega
  have hWlen : (V.drop low).length = high - low := by
    simp only [List.length_drop]; omega
  have hU : V.take low = arr.take low := by
    have h1 : (swapL arrm mid high).take low = V.take low := by
      rw [hVdec, List.take_append_eq_append_take, show low - V.length = 0 by omega]
      simp
    rw [← h1, h4take, htake]
  obtain ⟨X2, Y2, heq, hperm2, hX2, hY2⟩ :=
    partitionLoop_spec cmp (arrm.getD mid default) (V.drop low) [] [] (V.take low)
      (arrm.getD mid default :: D1) (by simp) (by simp)
  simp only [List.length_nil, Nat.add_zero, List.append_nil] at heq
  simp only [List.nil_append] at hperm2
  rw [hUlen] at heq
  rw [show low + (V.drop low).length = high by omega] at heq
  have hst : partitionLoop cmp (arrm.getD mid default) high (swapL arrm mid high)
      low low =
      (V.take low ++ X2 ++ Y2 ++ (arrm.getD mid default :: D1), low + X2.length) := by
    conv_lhs => rw [hVdec, ← hUW]
    exact heq
  have hlenX2Y2 : X2.length + Y2.length = high - low := by
    have h6 := hperm2.length_eq
    simp only [List.length_append] at h6
    omega
  have hfst : (partitionCore cmp arrm low high mid).1 =
      swapL (V.take low ++ X2 ++ Y2 ++ (arrm.getD mid default :: D1))
        (low + X2.length) high := by
    show swapL
        (partitionLoop cmp (arrm.getD mid default) high (swapL arrm mid high) low low).1
        (partitionLoop cmp (arrm.getD mid default) high (swapL arrm mid high) low low).2
        high =
      swapL (V.take low ++ X2 ++ Y2 ++ (arrm.getD mid default :: D1))
        (low + X2.length) high
    rw [hst]
  have hsnd : (partitionCore cmp arrm low high mid).2 = low + X2.length := by
    show (partitionLoop cmp (arrm.getD mid default) high (swapL arrm mid high)
      low low).2 = low + X2.length
    rw [hst]
  have hseg4 : ((swapL arrm mid high).drop low).take (high + 1 - low) =
      V.drop low ++ [arrm.getD mid default] := by
    conv_lhs => rw [hVdec, ← hUW]
    rw [show (V.take low ++ V.drop low) ++ (arrm.getD mid default :: D1) =
      V.take low ++ (V.drop low ++ (arrm.getD mid default :: D1)) by
        rw [List.append_assoc]]
    rw [drop_len_append _ _ low hUlen]
    rw [List.take_append_eq_append_take]
    rw [List.take_of_length_le (show (V.drop low).length ≤ high + 1 - low by omega)]
    rw [show high + 1 - low - (V.drop low).length = 1 by omega]
    simp
  have hsegperm : (V.drop low ++ [arrm.getD mid default]).Perm
      ((arr.drop low).take (high + 1 - low)) := by
    rw [← hseg4]
    exact seg_perm_of_sameOutside low high (swapL arrm mid high) arr
      ⟨h4len.trans hlen, h4perm.trans hperm, h4take.trans htake, h4drop.trans hdrop⟩
      (by omega)
  cases Y2 with
  | nil =>
    simp only [List.length_nil, Nat.add_zero] at hlenX2Y2
    refine ⟨X2, [], arrm.getD mid default, ?_, hsnd, ?_, hX2, by simp⟩
    · rw [hfst]
      rw [show low + X2.length = high by omega]
      rw [swapL_self (V.take low ++ X2 ++ [] ++ (arrm.getD mid default :: D1)) high
        (by simp only [List.length_append, List.length_cons, List.length_nil,
          List.length_take]; omega)]
      rw [← hU, ← hD1]
      simp
    · have hX2p : X2.Perm (V.drop low) := by simpa using hperm2
      exact (hX2p.append (List.Perm.refl [arrm.getD mid default])).trans hsegperm
  | cons y Y2' =>
    simp only [List.length_cons] at hlenX2Y2
    have hswap5 : swapL (V.take low ++ X2 ++ (y :: Y2') ++ (arrm.getD mid default :: D1))
        (low + X2.length) high =
        (V.take low ++ X2) ++ arrm.getD mid default :: (Y2' ++ y :: D1) := by
      rw [show low + X2.length = (V.take low ++ X2).length by
        simp only [List.length_append]; omega]
      rw [show high = ((V.take low ++ X2) ++ y :: Y2').length by
        simp only [List.length_append, List.length_cons]; omega]
      rw [show V.take low ++ X2 ++ (y :: Y2') ++ (arrm.getD mid default :: D1) =
        (V.take low ++ X2) ++ y :: (Y2' ++ (arrm.getD mid default :: D1)) by simp]
      rw [swapL_splice]
    refine ⟨X2, Y2' ++ [y], arrm.getD mid default, ?_, hsnd, ?_, hX2, ?_⟩
    · rw [hfst, hswap5, ← hU, ← hD1]
      simp
    · have h2 : (arrm.getD mid default :: (Y2' ++ [y])).Perm
          ((y :: Y2') ++ [arrm.getD mid default]) :=
        (List.Perm.cons _ (List.perm_append_singleton y Y2')).trans
          (List.perm_append_singleton (arrm.getD mid default) (y :: Y2')).symm
      have h3 := List.Perm.append_left X2 h2
      have h4 : (X2 ++ ((y :: Y2') ++ [arrm.getD mid default])).Perm
          (V.drop low ++ [arrm.getD mid default]) := by
        rw [show X2 ++ ((y :: Y2') ++ [arrm.getD mid default]) =
          (X2 ++ (y :: Y2')) ++ [arrm.getD mid default] by simp]
        exact hperm2.append (List.Perm.refl _)
      exact (h3.trans h4).trans hsegperm
    · intro z hz
      rcases List.mem_append.1 hz with h | h
      · exact hY2 z (by simp [h])
      · rw [List.mem_singleton] at h; rw [h]; exact hY2 y (by simp)

/-- The three median-of-three conditional swaps only permute `[low, high]`. -/
theorem medianArrange_sameOutside {T : Type} [Inhabited T] (cmp : T → T → ℚ)
    (arr : List T) (low high mid : ℕ) (hm1 : low ≤ mid) (hm2 : mid ≤ high)
    (hh : high < arr.length) :
    sameOutside low high (medianArrange cmp arr low high mid) arr := by
  simp only [medianArrange]
  refine swap_step_within _ _ _ _ _ _ _ hm1 hm2 (le_refl high) hh ?_
  refine swap_step_within _ _ _ _ _ _ _ (le_refl low) (by omega) (le_refl high) hh ?_
  refine swap_step_within _ _ _ _ _ _ _ (le_refl low) hm1 hm2 hh ?_
  exact sameOutside_refl low high arr

/-- `partition` is definitionally its two stages composed. -/
theorem partition_eq_core {T : Type} [Inhabited T] (cmp : T → T → ℚ)
    (arr : List T) (low high : ℕ) :
    partition cmp arr low high =
      partitionCore cmp (medianArrange cmp arr low high ((low + high) / 2))
        low high ((low + high) / 2) := rfl

/-- `partition(arr, low, high)` splits the segment `[low, high]` into a
block `≤` the chosen pivot, the pivot, and a block `>` it, leaving the rest
of the array unchanged, and returns the pivot position. -/
theorem partition_spec {T : Type} [Inhabited T] (cmp : T → T → ℚ)
    (arr : List T) (low high : ℕ) (hlh : low ≤ high) (hh : high < arr.length) :
    ∃ (xs ys : List T) (piv : T),
      (partition cmp arr low high).1 =
        arr.take low ++ (xs ++ (piv :: (ys ++ arr.drop (high + 1)))) ∧
      (partition cmp arr low high).2 = low + xs.length ∧
      (xs ++ piv :: ys).Perm ((arr.drop low).take (high + 1 - low)) ∧
      (∀ x ∈ xs, cmp x piv ≤ 0) ∧ (∀ y ∈ ys, 0 < cmp y piv) := by
  have hm1 : low ≤ (low + high) / 2 := by omega
  have hm2 : (low + high) / 2 ≤ high := by omega
  rw [partition_eq_core]
  exact partitionCore_spec cmp _ arr low high ((low + high) / 2) hm1 hm2 hh
    (medianArrange_sameOutside cmp arr low high ((low + high) / 2) hm1 hm2 hh)

/-! ### `quickSortHybrid` -/

/-- When the guard `low < high` fails the call is a no-op, for any fuel. -/
theorem quickSortHybrid_stop {T : Type} [Inhabited T] (cmp : T → T → ℚ)
    (threshold fuel : ℕ) (arr : List T) (low high : ℕ) (h : ¬ low < high) :
    quickSortHybrid cmp threshold fuel arr low high = arr := by
  cases fuel with
  | zero => rfl
  | succ fuel =>
    have hunf : quickSortHybrid cmp threshold (fuel + 1) arr low high =
        if low < high then
          (if high - low + 1 < threshold then insertionSort cmp arr low high
           else quickSortHybrid cmp threshold fuel
             (quickSortHybrid cmp threshold fuel (partition cmp arr low high).1
               low ((partition cmp arr low high).2 - 1))
             ((partition cmp arr low high).2 + 1) high)
        else arr := rfl
    rw [hunf, if_neg h]

/-- A single position splits any list around its value. -/
theorem singleton_seg {T : Type} [Inhabited T] (arr : List T) (i : ℕ)
    (hi : i < arr.length) :
    arr = arr.take i ++ [arr.getD i default] ++ arr.drop (i + 1) ∧
      (arr.drop i).take 1 = [arr.getD i default] := by
  constructor
  · rw [List.getD_eq_getElem arr default hi]
    conv_lhs => rw [← List.take_append_drop i arr]
    rw [List.drop_eq_getElem_cons hi]
    simp
  · rw [List.getD_eq_getElem arr default hi, List.drop_eq_getElem_cons hi]
    exact rfl

/-- Main invariant of the hybrid quicksort: on `[low, high]` it produces a
splice `take low ++ out ++ drop (high+1)` where `out` is a permutation of
the segment, sorted whenever the comparator is total and transitive. -/
theorem quickSortHybrid_spec {T : Type} [Inhabited T] (cmp : T → T → ℚ)
    (threshold : ℕ) :
    ∀ (fuel : ℕ) (arr : List T) (low high : ℕ), low ≤ high + 1 →
      high < arr.length → high + 1 ≤ fuel + low →
      ∃ out, quickSortHybrid cmp threshold fuel arr low high =
          arr.take low ++ out ++ arr.drop (high + 1) ∧
        out.Perm ((arr.drop low).take (high + 1 - low)) ∧
        (CmpTotal cmp → CmpTrans cmp → List.Pairwise (cle cmp) out) := by
  intro fuel
  induction fuel with
  | zero =>
    intro arr low high h1 h2 h3
    have hle : low = high + 1 := by omega
    subst hle
    refine ⟨[], ?_, ?_, fun _ _ => List.Pairwise.nil⟩
    · show arr = arr.take (high + 1) ++ [] ++ arr.drop (high + 1)
      rw [List.append_nil, List.take_append_drop]
    · rw [show high + 1 - (high + 1) = 0 by omega]
      simp
  | succ fuel ih =>
    intro arr low high h1 h2 h3
    have hunf : quickSortHybrid cmp threshold (fuel + 1) arr low high =
        if low < high then
          (if high - low + 1 < threshold then insertionSort cmp arr low high
           else quickSortHybrid cmp threshold fuel
             (quickSortHybrid cmp threshold fuel (partition cmp arr low high).1
               low ((partition cmp arr low high).2 - 1))
             ((partition cmp arr low high).2 + 1) high)
        else arr := rfl
    rw [hunf]
    by_cases hlh : low < high
    case neg =>
      rw [if_neg hlh]
      rcases Nat.lt_or_ge high low with hgt | hge
      · have hle : low = high + 1 := by omega
        subst hle
        refine ⟨[], ?_, ?_, fun _ _ => List.Pairwise.nil⟩
        · rw [List.append_nil, List.take_append_drop]
        · rw [show high + 1 - (high + 1) = 0 by omega]
          simp
      · rw [show high = low by omega]
        obtain ⟨hdec, hseg⟩ := singleton_seg arr low (by omega)
        refine ⟨[arr.getD low default], hdec, ?_, fun _ _ => by simp⟩
        rw [show low + 1 - low = 1 by omega, hseg]
    case pos =>
      rw [if_pos hlh]
      by_cases hthr : high - low + 1 < threshold
      · rw [if_pos hthr]
        exact ⟨insertionSortL cmp ((arr.drop low).take (high + 1 - low)),
          insertionSort_spec cmp arr low high (by omega) h2,
          insertionSortL_perm cmp _,
          fun htot htrans => insertionSortL_sorted htot htrans _⟩
      · rw [if_neg hthr]
        obtain ⟨xs, ys, piv, hp1, hp2, hp3, hp4, hp5⟩ :=
          partition_spec cmp arr low high (by omega) h2
        set st1 := (partition cmp arr low high).1 with hstdef
        set p := (partition cmp arr low high).2 with hpdef
        have h6 := hp3.length_eq
        simp only [List.length_append, List.length_cons, List.length_take,
          List.length_drop] at h6
        have hseglen : xs.length + ys.length + 1 = high + 1 - low := by omega
        have hlen1 : st1.length = arr.length := by
          rw [hp1]
          simp only [List.length_append, List.length_cons, List.length_take,
            List.length_drop]
          omega
        have hsttake : st1.take low = arr.take low := by
          rw [hp1]
          exact take_len_append _ _ low (by simp only [List.length_take]; omega)
        have hstdrop_low : st1.drop low = xs ++ (piv :: (ys ++ arr.drop (high + 1))) := by
          rw [hp1]
          exact drop_len_append _ _ low (by simp only [List.length_take]; omega)
        have hstdrop_p : st1.drop p = piv :: (ys ++ arr.drop (high + 1)) := by
          rw [hp1, show arr.take low ++ (xs ++ (piv :: (ys ++ arr.drop (high + 1)))) =
            (arr.take low ++ xs) ++ (piv :: (ys ++ arr.drop (high + 1))) by simp]
          exact drop_len_append _ _ p
            (by simp only [List.length_append, List.length_take]; omega)
        have hleft : ∃ out1, quickSortHybrid cmp threshold fuel st1 low (p - 1) =
            arr.take low ++ (out1 ++ (piv :: (ys ++ arr.drop (high + 1)))) ∧
            out1.Perm xs ∧
            (CmpTotal cmp → CmpTrans cmp → List.Pairwise (cle cmp) out1) := by
          rcases Nat.eq_zero_or_pos p with hp0 | hppos
          · have hxsnil : xs = [] := List.length_eq_zero.mp (by omega)
            refine ⟨[], ?_, by rw [hxsnil], fun _ _ => List.Pairwise.nil⟩
            rw [quickSortHybrid_stop cmp threshold fuel st1 low (p - 1) (by omega),
              hp1, hxsnil]
          · obtain ⟨out1, hL1, hL2, hL3⟩ := ih st1 low (p - 1) (by omega)
              (by rw [hlen1]; omega) (by omega)
            rw [show p - 1 + 1 = p by omega] at hL1 hL2
            refine ⟨out1, ?_, ?_, hL3⟩
            · rw [hL1, hsttake, hstdrop_p]
              simp
            · rw [hstdrop_low, show p - low = xs.length by omega] at hL2
              rw [take_len_append xs _ xs.length rfl] at hL2
              exact hL2
        obtain ⟨out1, hA, hB, hC⟩ := hleft
        rw [hA]
        have hout1len : out1.length = xs.length := hB.length_eq
        have hlenL : (arr.take low ++ (out1 ++ (piv :: (ys ++ arr.drop (high + 1))))).length
            = arr.length := by
          simp only [List.length_append, List.length_cons, List.length_take,
            List.length_drop]
          omega
        obtain ⟨out2, hR1, hR2, hR3⟩ :=
          ih (arr.take low ++ (out1 ++ (piv :: (ys ++ arr.drop (high + 1)))))
            (p + 1) high (by omega) (by rw [hlenL]; omega) (by omega)
        have hLtake : (arr.take low ++ (out1 ++ (piv :: (ys ++ arr.drop (high + 1))))).take
            (p + 1) = arr.take low ++ out1 ++ [piv] := by
          rw [show arr.take low ++ (out1 ++ (piv :: (ys ++ arr.drop (high + 1)))) =
            (arr.take low ++ out1 ++ [piv]) ++ (ys ++ arr.drop (high + 1)) by simp]
          exact take_len_append _ _ (p + 1) (by simp only [List.length_append,
            List.length_cons, List.length_nil, List.length_take]; omega)
        have hLdrop1 : (arr.take low ++ (out1 ++ (piv :: (ys ++ arr.drop (high + 1))))).drop
            (p + 1) = ys ++ arr.drop (high + 1) := by
          rw [show arr.take low ++ (out1 ++ (piv :: (ys ++ arr.drop (high + 1)))) =
            (arr.take low ++ out1 ++ [piv]) ++ (ys ++ arr.drop (high + 1)) by simp]
          exact drop_len_append _ _ (p + 1) (by simp only [List.length_append,
            List.length_cons, List.length_nil, List.length_take]; omega)
        have hLdroph : (arr.take low ++ (out1 ++ (piv :: (ys ++ arr.drop (high + 1))))).drop
            (high + 1) = arr.drop (high + 1) := by
          rw [show arr.take low ++ (out1 ++ (piv :: (ys ++ arr.drop (high + 1)))) =
            (arr.take low ++ out1 ++ piv :: ys) ++ arr.drop (high + 1) by simp]
          exact drop_len_append _ _ (high + 1) (by
            simp only [List.length_append, List.length_cons, List.length_take]
            omega)
        have hRseg : ((arr.take low ++ (out1 ++ (piv :: (ys ++ arr.drop (high + 1))))).drop
            (p + 1)).take (high + 1 - (p + 1)) = ys := by
          rw [hLdrop1, show high + 1 - (p + 1) = ys.length by omega]
          exact take_len_append _ _ _ rfl
        rw [hRseg] at hR2
        refine ⟨out1 ++ piv :: out2, ?_, ?_, ?_⟩
        · rw [hR1, hLtake, hLdroph]
          simp
        · exact (hB.append (List.Perm.cons piv hR2)).trans hp3
        · intro htot htrans
          have hout1 := hC htot htrans
          have hout2 := hR3 htot htrans
          rw [List.pairwise_append]
          refine ⟨hout1, ?_, ?_⟩
          · rw [List.pairwise_cons]
            refine ⟨?_, hout2⟩
            intro z hz
            have h0 : 0 < cmp z piv := hp5 z (hR2.mem_iff.1 hz)
            rcases htot piv z with h | h
            · exact h
            · exact absurd h (not_le.mpr h0)
          · intro a ha b hb
            have h1 : cle cmp a piv := hp4 a (hB.mem_iff.1 ha)
            rcases List.mem_cons.1 hb with hb1 | hb2
            · rw [hb1]
              exact h1
            · have h2 : cle cmp piv b := by
                rcases htot piv b with h | h
                · exact h
                · exact absurd h (not_le.mpr (hp5 b (hR2.mem_iff.1 hb2)))
              exact htrans a piv b h1 h2

/-- `hybridQuickSort` returns a permutation of its input, for every
comparator. -/
theorem hybridQuickSort_perm {T : Type} [Inhabited T] (cmp : T → T → ℚ)
    (threshold : ℕ) (l : List T) : (hybridQuickSort cmp threshold l).Perm l := by
  cases l with
  | nil => exact List.Perm.refl _
  | cons x xs =>
    obtain ⟨out, h1, h2, h3⟩ := quickSortHybrid_spec cmp threshold
      ((x :: xs).length) (x :: xs) 0 ((x :: xs).length - 1)
      (by omega) (by simp only [List.length_cons]; omega)
      (by simp only [List.length_cons]; omega)
    show (quickSortHybrid cmp threshold (x :: xs).length (x :: xs) 0
      ((x :: xs).length - 1)).Perm (x :: xs)
    rw [h1, show (x :: xs).length - 1 + 1 = (x :: xs).length from
      by simp only [List.length_cons]; omega]
    rw [List.drop_length]
    simp only [List.take_zero, List.nil_append, List.append_nil]
    rw [show (x :: xs).length - 1 + 1 - 0 = (x :: xs).length from
      by simp only [List.length_cons]; omega] at h2
    simp only [List.drop_zero] at h2
    rw [List.take_length] at h2
    exact h2

/-- With a total and transitive comparator, `hybridQuickSort` sorts. -/
theorem hybridQuickSort_sorted {T : Type} [Inhabited T] {cmp : T → T → ℚ}
    (htot : CmpTotal cmp) (htrans : CmpTrans cmp) (threshold : ℕ) (l : List T) :
    List.Pairwise (cle cmp) (hybridQuickSort cmp threshold l) := by
  cases l with
  | nil => exact List.Pairwise.nil
  | cons x xs =>
    obtain ⟨out, h1, h2, h3⟩ := quickSortHybrid_spec cmp threshold
      ((x :: xs).length) (x :: xs) 0 ((x :: xs).length - 1)
      (by omega) (by simp only [List.length_cons]; omega)
      (by simp only [List.length_cons]; omega)
    show List.Pairwise (cle cmp) (quickSortHybrid cmp threshold (x :: xs).length
      (x :: xs) 0 ((x :: xs).length - 1))
    rw [h1, show (x :: xs).length - 1 + 1 = (x :: xs).length from
      by simp only [List.length_cons]; omega]
    rw [List.drop_length]
    simp only [List.take_zero, List.nil_append, List.append_nil]
    exact h3 htot htrans

/-! ### Evaluation helpers for the concrete counterexamples -/

/-- One doubling step of the merge phase. -/
theorem timMergeAll_step {T : Type} [Inhabited T] (cmp : T → T → ℚ)
    (n fuel : ℕ) (arr : List T) (size : ℕ) (h : size < n) :
    timMergeAll cmp n (fuel + 1) arr size =
      timMergeAll cmp n fuel (timMergePass cmp n size (n + 1) arr 0) (size * 2) := by
  simp only [timMergeAll]
  rw [if_pos h]

/-- The merge phase stops once the width reaches the length. -/
theorem timMergeAll_stop {T : Type} [Inhabited T] (cmp : T → T → ℚ)
    (n fuel : ℕ) (arr : List T) (size : ℕ) (h : ¬ size < n) :
    timMergeAll cmp n fuel arr size = arr := by
  cases fuel with
  | zero => rfl
  | succ fuel =>
    simp only [timMergeAll]
    rw [if_neg h]

/-- Below the threshold the hybrid quicksort is one insertion sort. -/
theorem quickSortHybrid_insertion {T : Type} [Inhabited T] (cmp : T → T → ℚ)
    (threshold fuel : ℕ) (arr : List T) (low high : ℕ) (h1 : low < high)
    (h2 : high - low + 1 < threshold) :
    quickSortHybrid cmp threshold (fuel + 1) arr low high =
      insertionSort cmp arr low high := by
  have hunf : quickSortHybrid cmp threshold (fuel + 1) arr low high =
      if low < high then
        (if high - low + 1 < threshold then insertionSort cmp arr low high
         else quickSortHybrid cmp threshold fuel
           (quickSortHybrid cmp threshold fuel (partition cmp arr low high).1
             low ((partition cmp arr low high).2 - 1))
           ((partition cmp arr low high).2 + 1) high)
      else arr := rfl
  rw [hunf, if_pos h1, if_pos h2]

/-- Concrete run of `timSort` on `lStab` with `cmpStab`: the merge pulls
`100` in front of the whole first run (because `cmpStab 0 100 = 1`) even
though `100` compares equal (`0`) with `1, …, 31`. -/
theorem timSort_cmpStab_eval : timSort cmpStab lStab =
    [100, 0, 1, 2, 3, 4, 5, 6, 7, 8, 9, 10, 11, 12, 13, 14, 15,
     16, 17, 18, 19, 20, 21, 22, 23, 24, 25, 26, 27, 28, 29, 30, 31, 101] := by
  have hlen : lStab.length = 34 := rfl
  have hchunk : chunkSort cmpStab lStab = lStab := by
    rw [chunkSort_expand cmpStab lStab (by decide),
      chunkSort_expand cmpStab (lStab.drop 32) (by decide),
      show (lStab.drop 32).drop 32 = ([] : List ℕ) from rfl, chunkSort_nil]
    decide
  have hpass : timMergePass cmpStab 34 32 35 lStab 0 = mergePassL cmpStab 32 lStab := by
    have h := timMergePass_spec cmpStab 32 (by omega) 35 lStab [] (by decide)
    simp only [List.length_nil, Nat.zero_add, List.nil_append] at h
    rw [hlen] at h
    exact h
  have hmerge : mergePassL cmpStab 32 lStab =
      mergeL cmpStab (lStab.take 32) (lStab.drop 32) := by
    rw [mergePassL_expand cmpStab 32 lStab (by decide) (by omega)]
    rw [show lStab.take (2 * 32) = lStab from rfl]
    rw [if_pos (by decide), show lStab.drop (2 * 32) = ([] : List ℕ) from rfl,
      mergePassL_nil]
    simp
  have hml : mergeL cmpStab (lStab.take 32) (lStab.drop 32) =
      [100, 0, 1, 2, 3, 4, 5, 6, 7, 8, 9, 10, 11, 12, 13, 14, 15,
       16, 17, 18, 19, 20, 21, 22, 23, 24, 25, 26, 27, 28, 29, 30, 31, 101] := by
    rw [show lStab.take 32 =
      [0, 1, 2, 3, 4, 5, 6, 7, 8, 9, 10, 11, 12, 13, 14, 15,
       16, 17, 18, 19, 20, 21, 22, 23, 24, 25, 26, 27, 28, 29, 30, 31] from rfl]
    rw [show lStab.drop 32 = [100, 101] from rfl]
    norm_num [mergeL, cmpStab]
  rw [timSort_eq, hlen, hchunk]
  rw [timMergeAll_step cmpStab 34 34 lStab 32 (by omega)]
  rw [show (34 : ℕ) + 1 = 35 from rfl, show (32 : ℕ) * 2 = 64 from rfl]
  rw [hpass, hmerge, hml]
  exact timMergeAll_stop cmpStab 34 34 _ 64 (by omega)

end AdvancedSortingEngine

end Nexus

namespace Nexus

namespace AdvancedSearchEngine

/-! ### The Levenshtein distance of a string with itself is zero

Row `j` of the self-distance DP is `|i - j|` in column `i`; the proofs
below establish this row invariant for the inner and outer loops. -/

theorem levGo_self (s : List Char) (j : ℕ) :
    ∀ (B : List Char) (t : ℕ), s.drop t = B →
      levGo (s.getD j ' ') B
          ((List.range' t (s.length + 1 - t)).map (fun i => Nat.dist i j))
          (Nat.dist t (j + 1)) =
        (List.range' (t + 1) (s.length - t)).map (fun i => Nat.dist i (j + 1)) := by
  intro B
  induction B with
  | nil =>
    intro t ht
    have hlen : s.length ≤ t := by
      have h2 := congrArg List.length ht
      simp only [List.length_drop, List.length_nil] at h2
      omega
    rw [show s.length - t = 0 by omega]
    simp [levGo]
  | cons c1 B' ih =>
    intro t ht
    have htlen : t < s.length := by
      have h2 := congrArg List.length ht
      simp only [List.length_drop, List.length_cons] at h2
      omega
    have hdec := List.drop_eq_getElem_cons htlen
    rw [ht] at hdec
    have hc1 : c1 = s.getD t ' ' := by
      rw [List.getD_eq_getElem s ' ' htlen]
      exact (List.cons.injEq _ _ _ _ ▸ hdec).1
    have hB' : s.drop (t + 1) = B' := ((List.cons.injEq _ _ _ _ ▸ hdec).2).symm
    obtain ⟨a, ha⟩ : ∃ a, s.length - t = a + 1 := ⟨s.length - t - 1, by omega⟩
    rw [ha, show s.length + 1 - t = a + 1 + 1 by omega]
    rw [List.range'_succ]
    rw [List.range'_succ]
    simp only [List.map_cons]
    simp only [levGo, List.headD_cons]
    have hih := ih (t + 1) hB'
    rw [show s.length + 1 - (t + 1) = a + 1 by omega] at hih
    rw [show s.length - (t + 1) = a by omega] at hih
    rw [List.range'_succ] at hih
    simp only [List.map_cons] at hih
    have hcur : min (Nat.dist t (j + 1) + 1) (min (Nat.dist (t + 1) j + 1)
        (Nat.dist t j + (if c1 = s.getD j ' ' then 0 else 1))) =
        Nat.dist (t + 1) (j + 1) := by
      rcases eq_or_ne t j with hij | hij
      · rw [hc1, hij, if_pos rfl]
        simp only [Nat.dist]
        omega
      · by_cases hc : c1 = s.getD j ' '
        · rw [if_pos hc]
          simp only [Nat.dist]
          omega
        · rw [if_neg hc]
          simp only [Nat.dist]
          omega
    rw [hcur, hih]

theorem levRows_self (s : List Char) :
    ∀ (C : List Char) (j : ℕ), s.drop j = C → j ≤ s.length →
      levRows s C ((List.range' 0 (s.length + 1)).map (fun i => Nat.dist i j)) j =
        (List.range' 0 (s.length + 1)).map (fun i => Nat.dist i s.length) := by
  intro C
  induction C with
  | nil =>
    intro j hj hjle
    have hlen : s.length ≤ j := by
      have h2 := congrArg List.length hj
      simp only [List.length_drop, List.length_nil] at h2
      omega
    have hjeq : j = s.length := by omega
    rw [hjeq]
    rfl
  | cons c2 C' ih =>
    intro j hj hjle
    have hjlt : j < s.length := by
      have h2 := congrArg List.length hj
      simp only [List.length_drop, List.length_cons] at h2
      omega
    have hdec := List.drop_eq_getElem_cons hjlt
    rw [hj] at hdec
    have hc2 : c2 = s.getD j ' ' := by
      rw [List.getD_eq_getElem s ' ' hjlt]
      exact (List.cons.injEq _ _ _ _ ▸ hdec).1
    have hC' : s.drop (j + 1) = C' := ((List.cons.injEq _ _ _ _ ▸ hdec).2).symm
    simp only [levRows]
    have hgo := levGo_self s j s 0 (by simp)
    rw [show s.length + 1 - 0 = s.length + 1 by omega,
      show s.length - 0 = s.length by omega,
      show Nat.dist 0 (j + 1) = j + 1 by simp [Nat.dist],
      show (0 : ℕ) + 1 = 1 from rfl] at hgo
    have hrow : (j + 1) :: levGo c2 s
        ((List.range' 0 (s.length + 1)).map (fun i => Nat.dist i j)) (j + 1) =
        (List.range' 0 (s.length + 1)).map (fun i => Nat.dist i (j + 1)) := by
      rw [hc2, hgo]
      conv_rhs => rw [List.range'_succ]
      simp only [List.map_cons]
      rw [show Nat.dist 0 (j + 1) = j + 1 by simp [Nat.dist],
        show (0 : ℕ) + 1 = 1 from rfl]
    rw [hrow]
    exact ih (j + 1) hC' (by omega)

theorem levenshtein_self (q : String) : levenshteinDistance q q = 0 := by
  unfold levenshteinDistance
  have hql : q.length = q.data.length := rfl
  have hinit : List.range (q.length + 1) =
      (List.range' 0 (q.data.length + 1)).map (fun i => Nat.dist i 0) := by
    rw [hql, List.range_eq_range']
    have hpt : ∀ x ∈ List.range' 0 (q.data.length + 1), x = Nat.dist x 0 := by
      intro x _
      simp [Nat.dist]
    calc List.range' 0 (q.data.length + 1)
        = (List.range' 0 (q.data.length + 1)).map id := (List.map_id _).symm
      _ = (List.range' 0 (q.data.length + 1)).map (fun i => Nat.dist i 0) :=
        List.map_congr_left (by intro x hx; exact hpt x hx)
  rw [hinit, levRows_self q.data q.data 0 (by simp) (by simp)]
  rw [hql]
  rw [List.getD_eq_getElem _ 0 (by simp [List.length_map, List.length_range'])]
  rw [List.getElem_map, List.getElem_range']
  simp [Nat.dist]

/-! ### Structure of `fuzzySearch` -/

theorem scoreOf_le_one (query : String) (st : Student) : scoreOf query st ≤ 1 := by
  unfold scoreOf
  have h1 : (0 : ℚ) ≤ (levenshteinDistance (lowerStr query) (searchableTextOf st) : ℚ) /
      (max (lowerStr query).length (searchableTextOf st).length : ℚ) :=
    div_nonneg (by positivity) (by positivity)
  linarith

theorem scoreOf_exact (query : String) (st : Student)
    (hex : searchableTextOf st = lowerStr query) : scoreOf query st = 1 := by
  unfold scoreOf
  rw [hex, levenshtein_self]
  norm_num

theorem filterMap_fst (students : List Student) (f : Student → ℚ) (pred : ℚ → Bool) :
    ((students.map (fun st => (st, f st))).filter (fun p => pred p.2)).map Prod.fst =
      students.filter (fun st => pred (f st)) := by
  induction students with
  | nil => rfl
  | cons s rest ih =>
    cases h : pred (f s) with
    | true => simp [List.filter_cons, h, ih]
    | false => simp [List.filter_cons, h, ih]

theorem mem_scored_snd (students : List Student) (f : Student → ℚ) (pred : ℚ → Bool)
    (p : Student × ℚ)
    (hp : p ∈ (students.map (fun st => (st, f st))).filter (fun q => pred q.2)) :
    p.2 = f p.1 := by
  have h1 : p ∈ students.map (fun st => (st, f st)) := List.mem_of_mem_filter hp
  simp only [List.mem_map] at h1
  obtain ⟨st, _, rfl⟩ := h1
  rfl

theorem fuzzySearch_spec (students : List Student) (query : String) (threshold : ℚ) :
    (fuzzySearch students query threshold).Perm
      (students.filter (fun st => decide (threshold ≤ scoreOf query st))) ∧
    List.Pairwise (fun a b => scoreOf query b ≤ scoreOf query a)
      (fuzzySearch students query threshold) ∧
    (threshold ≤ 1 →
      ∀ st ∈ students, searchableTextOf st = lowerStr query →
        st ∈ fuzzySearch students query threshold ∧ scoreOf query st = 1 ∧
        ∀ hd, (fuzzySearch students query threshold).head? = some hd →
          scoreOf query hd = 1) := by
  have htr : ∀ a b c : Student × ℚ, decide (b.2 - a.2 ≤ 0) = true →
      decide (c.2 - b.2 ≤ 0) = true → decide (c.2 - a.2 ≤ 0) = true := by
    intro a b c h1 h2
    simp only [decide_eq_true_eq] at h1 h2 ⊢
    linarith
  have hto : ∀ a b : Student × ℚ,
      (decide (b.2 - a.2 ≤ 0) || decide (a.2 - b.2 ≤ 0)) = true := by
    intro a b
    simp only [Bool.or_eq_true, decide_eq_true_eq]
    rcases le_total a.2 b.2 with h | h
    · right; linarith
    · left; linarith
  have hperm : (fuzzySearch students query threshold).Perm
      (students.filter (fun st => decide (threshold ≤ scoreOf query st))) := by
    unfold fuzzySearch
    rw [← filterMap_fst students (scoreOf query) (fun x => decide (threshold ≤ x))]
    exact (List.mergeSort_perm _ _).map Prod.fst
  have hpair : List.Pairwise (fun a b => scoreOf query b ≤ scoreOf query a)
      (fuzzySearch students query threshold) := by
    unfold fuzzySearch
    rw [List.pairwise_map]
    have hs := List.sorted_mergeSort htr hto
      ((students.map (fun st => (st, scoreOf query st))).filter
        (fun p => decide (threshold ≤ p.2)))
    refine List.Pairwise.imp_of_mem ?_ hs
    intro a b ha hb hab
    have hma : a ∈ (students.map (fun st => (st, scoreOf query st))).filter
        (fun p => decide (threshold ≤ p.2)) :=
      (List.mergeSort_perm _ _).subset ha
    have hmb : b ∈ (students.map (fun st => (st, scoreOf query st))).filter
        (fun p => decide (threshold ≤ p.2)) :=
      (List.mergeSort_perm _ _).subset hb
    have h2a := mem_scored_snd students (scoreOf query)
      (fun x => decide (threshold ≤ x)) a hma
    have h2b := mem_scored_snd students (scoreOf query)
      (fun x => decide (threshold ≤ x)) b hmb
    simp only [decide_eq_true_eq] at hab
    rw [← h2a, ← h2b]
    linarith
  refine ⟨hperm, hpair, ?_⟩
  intro hth st hst hex
  have hscore : scoreOf query st = 1 := scoreOf_exact query st hex
  have hmem : st ∈ fuzzySearch students query threshold := by
    rw [hperm.mem_iff, List.mem_filter]
    exact ⟨hst, by simp only [decide_eq_true_eq]; rw [hscore]; exact hth⟩
  refine ⟨hmem, hscore, ?_⟩
  intro hd hhd
  cases hout : fuzzySearch students query threshold with
  | nil => rw [hout] at hhd; simp at hhd
  | cons x tl =>
    rw [hout] at hhd
    simp only [List.head?_cons, Option.some.injEq] at hhd
    rw [hout] at hpair hmem
    rw [← hhd]
    have hle1 : scoreOf query x ≤ 1 := scoreOf_le_one query x
    rcases List.mem_cons.1 hmem with h | h
    · rw [← h, hscore]
    · have := (List.pairwise_cons.1 hpair).1 st h
      rw [hscore] at this
      linarith


/-! ### Concrete score evaluations for the test fixtures -/

theorem scoreOf_stA_eval : scoreOf "a b c d" stA = 1 := by
  unfold scoreOf
  rw [show lowerStr "a b c d" = "a b c d" from by decide,
    show searchableTextOf stA = "a b c d" from by decide,
    show levenshteinDistance "a b c d" "a b c d" = 0 from by decide]
  rw [show ("a b c d").length = 7 from rfl]
  norm_num

theorem scoreOf_stB_eval : scoreOf "a b c d" stB = 1 := by
  unfold scoreOf
  rw [show lowerStr "a b c d" = "a b c d" from by decide,
    show searchableTextOf stB = "a b c d" from by decide,
    show levenshteinDistance "a b c d" "a b c d" = 0 from by decide]
  rw [show ("a b c d").length = 7 from rfl]
  norm_num


end AdvancedSearchEngine

end Nexus

namespace Nexus

namespace PredictionEngine

/-! ### The k-means convergence check against the sparse initial array -/

/-- Every entry read from the sparse initial `assignments` is a hole. -/
theorem getD_replicate_none (n i : ℕ) :
    (List.replicate n (none : Option ℕ)).getD i none = none := by
  by_cases h : i < n
  · rw [List.getD_eq_getElem _ _ (by simpa using h)]
    exact List.getElem_replicate _ _
  · exact List.getD_eq_default _ _ (by simpa using Nat.le_of_not_lt h)

/-- `arraysEqual` of the sparse initial array against **any** dense array
of the same length is `true`: `every` skips all the holes, so the check is
vacuous. -/
theorem arraysEqual_replicate (b : List ℕ) :
    arraysEqual (List.replicate b.length none) b = true := by
  unfold arraysEqual
  simp only [List.length_replicate, beq_self_eq_true, Bool.true_and,
    List.all_eq_true, List.mem_range]
  intro i _
  rw [getD_replicate_none]

/-- Consequently the k-means loop `break`s in its very first iteration,
for every fuel, every initial centroid set and every input: the
assignments are still the sparse hole array and the centroids are still
the random initial ones. -/
theorem kmLoop_stuck (points : List (List ℚ)) (k : ℕ) (fuel : ℕ)
    (c0 : List (List ℚ)) :
    kmLoop points k fuel c0 (List.replicate points.length none) =
      (c0, List.replicate points.length none) := by
  cases fuel with
  | zero => rfl
  | succ f =>
    show (if arraysEqual (List.replicate points.length none)
        (points.map (fun p => findNearestCentroid p c0)) then
        (c0, List.replicate points.length none)
      else kmLoop points k f
        (updateCentroids points
          ((points.map (fun p => findNearestCentroid p c0)).map some) k)
        ((points.map (fun p => findNearestCentroid p c0)).map some)) =
      (c0, List.replicate points.length none)
    rw [show List.replicate points.length (none : Option ℕ) =
      List.replicate (points.map (fun p => findNearestCentroid p c0)).length none
      from by rw [List.length_map]]
    rw [arraysEqual_replicate]
    simp

/-- `calculateInertia` against the sparse assignments throws at the first
non-empty feature row (empty rows are skipped: their `reduce` never reads
the `undefined` centroid). -/
theorem inertiaGo_hole_error (centroids : List (List ℚ)) (n : ℕ) :
    ∀ (ps : List (List ℚ)) (i : ℕ) (acc : ℚ), (∃ p ∈ ps, p ≠ []) →
      inertiaGo centroids (List.replicate n none) ps i acc =
        Except.error "TypeError: Cannot read properties of undefined (reading '0')" := by
  intro ps
  induction ps with
  | nil =>
    intro i acc h
    obtain ⟨p, hp, -⟩ := h
    exact absurd hp (List.not_mem_nil p)
  | cons point ps ih =>
    intro i acc h
    unfold inertiaGo
    rw [getD_replicate_none]
    cases point with
    | nil =>
      show inertiaGo centroids (List.replicate n none) ps (i + 1) acc = _
      obtain ⟨p, hp, hne⟩ := h
      rcases List.mem_cons.1 hp with rfl | hp2
      · exact absurd rfl hne
      · exact ih (i + 1) acc ⟨p, hp2, hne⟩
    | cons x xs => rfl

end PredictionEngine

end Nexus

namespace Nexus

/-! ## Claim theorems (first batch) -/

/-- C1: the claim says `topologicalSort` must fail with a signalled,
distinguishable error on a cyclic prerequisite graph.  The code does not:
on the two-course cycle A↔B it returns the empty list — the cyclic
(never-dequeued) nodes are silently omitted, and the return type
(`List (Option Course)`, the image of the TS `Course[]` return type) has
no error case at all.  This evaluation exhibits the silent truncation the
spec flags as a defect. -/
theorem c1_cycle_silently_dropped :
    AdvancedSortingEngine.topologicalSort
        [{ id := "A", name := "Algebra", prerequisites := some ["B"] },
         { id := "B", name := "Basics", prerequisites := some ["A"] }] = [] ∧
    ([{ id := "A", name := "Algebra", prerequisites := some ["B"] },
      { id := "B", name := "Basics", prerequisites := some ["A"] }] : List Course).length = 2 := by
  constructor
  · rfl
  · rfl

/-- C7: the claim says `boyerMooreSearch` returns exactly the starting
offsets at which the pattern occurs.  The code misses occurrences: on
text `"aab"`, pattern `"ab"`, the pattern occurs at offset 1 (second
conjunct), but the search returns `[]`.  Cause: on the first-alignment
mismatch the shift is `max(1, j - (badCharTable.get('a') || -1))`; the
stored last-occurrence index of `'a'` is `0`, which is falsy in
JavaScript, so `|| -1` replaces it by `-1` and the scan jumps by 2,
skipping the real match. -/
theorem c7_boyer_moore_misses_occurrence :
    AdvancedSearchEngine.boyerMooreSearch ['a', 'a', 'b'] ['a', 'b'] = [] ∧
    (List.drop 1 ['a', 'a', 'b']).take 2 = ['a', 'b'] := by
  constructor
  · rfl
  · rfl

/-- C4: `calculateStatistics` on the empty list fails with an explicit
error, and on the singleton `[5]` returns mean `5`, median `5`, variance
`0`, standard deviation `0` (companion function, `√0`), and no outliers. -/
theorem c4_statistics_empty_and_singleton :
    AdvancedAnalyticsEngine.calculateStatistics [] =
      .error "Cannot calculate statistics for empty array" ∧
    (AdvancedAnalyticsEngine.calculateStatistics [5]).map
        (fun s => (s.mean, s.median, s.variance, s.outliers)) = .ok (5, 5, 0, []) ∧
    AdvancedAnalyticsEngine.standardDeviationOf [5] = 0 := by
  refine ⟨rfl, ?_, ?_⟩
  · simp [AdvancedAnalyticsEngine.calculateStatistics,
      AdvancedAnalyticsEngine.calculatePercentile,
      AdvancedAnalyticsEngine.detectOutliers, Except.map]
  · simp [AdvancedAnalyticsEngine.standardDeviationOf,
      AdvancedAnalyticsEngine.varianceQ]

/-- C9, counterexample: the claim says that with zero-variance targets the
confidence computation returns `0` rather than `NaN`.  At `X = [[0]]`,
`y = [1]`, `weights = [1, 0]` the prediction is exact, so the MSE is `0`,
the variance is `0`, and `Math.max(0, 1 - 0/0) = Math.max(0, NaN) = NaN`,
not `0`. -/
theorem c9_zero_variance_nan_counterexample :
    PredictionEngine.variance [1] = 0 ∧
    PredictionEngine.calculateConfidence [[0]] [1] [1, 0] = JSNum.nan ∧
    JSNum.nan ≠ JSNum.num 0 := by
  have hvar : PredictionEngine.variance [1] = 0 := by
    simp [PredictionEngine.variance]
  refine ⟨hvar, ?_, by simp⟩
  have hmse : PredictionEngine.mseOf [[0]] [1] [1, 0] = 0 := by
    simp [PredictionEngine.mseOf, PredictionEngine.predict]
  simp [PredictionEngine.calculateConfidence, hvar, hmse, jsDiv, jsSubFin, jsMaxFin]

/-- C9, amended: the confidence is `Math.max(0, 1 − MSE/variance(y))`; when
the targets have zero variance and the MSE is non-zero, the division yields
`+Infinity` and the confidence is `0` (not `NaN`/`Infinity`); the `MSE = 0`
case (see the counterexample) yields `NaN`. -/
theorem c9_zero_variance_confidence_zero (X : List (List ℚ)) (y weights : List ℚ)
    (hvar : PredictionEngine.variance y = 0)
    (hmse : PredictionEngine.mseOf X y weights ≠ 0) :
    PredictionEngine.calculateConfidence X y weights = JSNum.num 0 := by
  have hnn : 0 ≤ PredictionEngine.mseOf X y weights := by
    unfold PredictionEngine.mseOf
    apply div_nonneg _ (by positivity)
    apply List.sum_nonneg
    intro x hx
    simp only [List.mem_map] at hx
    obtain ⟨p, _, rfl⟩ := hx
    positivity
  have hpos : 0 < PredictionEngine.mseOf X y weights := lt_of_le_of_ne hnn (Ne.symm hmse)
  simp [PredictionEngine.calculateConfidence, hvar, jsDiv, hmse, hpos, jsSubFin, jsMaxFin]

/-- C9 witness: a concrete instantiation of the amended theorem —
constant targets `[1, 1]` (zero variance) predicted with all-zero weights
(non-zero MSE) give confidence exactly `0`. -/
theorem c9_zero_variance_confidence_zero_witness :
    PredictionEngine.variance [1, 1] = 0 ∧
    PredictionEngine.mseOf [[0], [0]] [1, 1] [0, 0] ≠ 0 ∧
    PredictionEngine.calculateConfidence [[0], [0]] [1, 1] [0, 0] = JSNum.num 0 := by
  have h1 : PredictionEngine.variance [1, 1] = 0 := by
    simp [PredictionEngine.variance]
  have h2 : PredictionEngine.mseOf [[0], [0]] [1, 1] [0, 0] ≠ 0 := by
    simp [PredictionEngine.mseOf, PredictionEngine.predict]
  exact ⟨h1, h2, c9_zero_variance_confidence_zero _ _ _ h1 h2⟩

/-- C2, counterexample: the claim promises an output ordered by **every**
comparator.  With the (inconsistent, but type-correct) constant-`1`
comparator, `hybridQuickSort` on `[0, 1]` returns `[1, 0]`, whose adjacent
pair compares `1 > 0` — the output is not ordered by the supplied
comparator.  (The permutation half of the claim does hold in general; see
the amended theorem.) -/
theorem c2_unordered_output_counterexample :
    AdvancedSortingEngine.hybridQuickSort (fun _ _ => (1 : ℚ)) 10 ([0, 1] : List ℕ) =
      [1, 0] ∧
    ¬ List.Pairwise (AdvancedSortingEngine.cle (fun _ _ => (1 : ℚ))) ([1, 0] : List ℕ) := by
  constructor
  · have h0 : AdvancedSortingEngine.hybridQuickSort (fun _ _ => (1 : ℚ)) 10
        ([0, 1] : List ℕ) =
        AdvancedSortingEngine.insertionSort (fun _ _ => (1 : ℚ)) [0, 1] 0 1 := by
      show AdvancedSortingEngine.quickSortHybrid (fun _ _ => (1 : ℚ)) 10
        ([0, 1] : List ℕ).length [0, 1] 0 (([0, 1] : List ℕ).length - 1) = _
      rw [show ([0, 1] : List ℕ).length = 2 from rfl,
        show (2 : ℕ) - 1 = 1 from rfl, show (2 : ℕ) = 1 + 1 from rfl]
      exact AdvancedSortingEngine.quickSortHybrid_insertion (fun _ _ => (1 : ℚ)) 10 1
        [0, 1] 0 1 (by omega) (by omega)
    rw [h0, AdvancedSortingEngine.insertionSort_spec (fun _ _ => (1 : ℚ)) [0, 1] 0 1
      (by omega) (by decide)]
    decide
  · norm_num [List.pairwise_cons, AdvancedSortingEngine.cle]

/-- C2, amended: for every finite input and every comparator, both
`hybridQuickSort` and `timSort` return a permutation of the input; the
outputs are ordered by the comparator whenever it is consistent (the
relation `cmp a b ≤ 0` is total and transitive).  The original claim's
unconditional ordering promise fails for inconsistent comparators (see the
counterexample). -/
theorem c2_sorts_perm_and_sorted_consistent {T : Type} [Inhabited T]
    (cmp : T → T → ℚ) (threshold : ℕ) (l : List T) :
    (AdvancedSortingEngine.hybridQuickSort cmp threshold l).Perm l ∧
    (AdvancedSortingEngine.timSort cmp l).Perm l ∧
    (AdvancedSortingEngine.CmpTotal cmp → AdvancedSortingEngine.CmpTrans cmp →
      List.Pairwise (AdvancedSortingEngine.cle cmp)
        (AdvancedSortingEngine.hybridQuickSort cmp threshold l) ∧
      List.Pairwise (AdvancedSortingEngine.cle cmp)
        (AdvancedSortingEngine.timSort cmp l)) :=
  ⟨AdvancedSortingEngine.hybridQuickSort_perm cmp threshold l,
   AdvancedSortingEngine.timSort_perm cmp l,
   fun htot htrans =>
     ⟨AdvancedSortingEngine.hybridQuickSort_sorted htot htrans threshold l,
      AdvancedSortingEngine.timSort_sorted htot htrans l⟩⟩

/-- C2 witness: the amended theorem at the concrete consistent comparator
`(a, b) ↦ a − b` on `[2, 0, 1]` — both sorts permute the input and both
outputs are ordered. -/
theorem c2_sorts_perm_and_sorted_consistent_witness :
    (AdvancedSortingEngine.hybridQuickSort (fun a b : ℕ => (a : ℚ) - b) 10
      [2, 0, 1]).Perm [2, 0, 1] ∧
    (AdvancedSortingEngine.timSort (fun a b : ℕ => (a : ℚ) - b) [2, 0, 1]).Perm
      [2, 0, 1] ∧
    List.Pairwise (AdvancedSortingEngine.cle (fun a b : ℕ => (a : ℚ) - b))
      (AdvancedSortingEngine.hybridQuickSort (fun a b : ℕ => (a : ℚ) - b) 10
        [2, 0, 1]) ∧
    List.Pairwise (AdvancedSortingEngine.cle (fun a b : ℕ => (a : ℚ) - b))
      (AdvancedSortingEngine.timSort (fun a b : ℕ => (a : ℚ) - b) [2, 0, 1]) := by
  have htot : AdvancedSortingEngine.CmpTotal (fun a b : ℕ => (a : ℚ) - b) := by
    intro a b
    rcases le_total (a : ℚ) (b : ℚ) with h | h
    · exact Or.inl (sub_nonpos.mpr h)
    · exact Or.inr (sub_nonpos.mpr h)
  have htrans : AdvancedSortingEngine.CmpTrans (fun a b : ℕ => (a : ℚ) - b) := by
    intro a b c h1 h2
    exact sub_nonpos.mpr ((sub_nonpos.mp h1).trans (sub_nonpos.mp h2))
  obtain ⟨p1, p2, hs⟩ :=
    c2_sorts_perm_and_sorted_consistent (fun a b : ℕ => (a : ℚ) - b) 10 [2, 0, 1]
  obtain ⟨s1, s2⟩ := hs htot htrans
  exact ⟨p1, p2, s1, s2⟩

/-- C3, counterexample: the claim promises stability for **every**
comparator.  With the inconsistent comparator `cmpStab` (all pairs compare
equal except `cmpStab 0 100 = 1`), the elements `1` and `100` compare equal
in both directions and `1` precedes `100` in the input `lStab`, yet in
`timSort cmpStab lStab` the element `100` precedes `1`: the first merge
takes `100` before the entire left run because `cmpStab 0 100 = 1 > 0`. -/
theorem c3_stability_counterexample :
    AdvancedSortingEngine.cmpStab 1 100 = 0 ∧
    AdvancedSortingEngine.cmpStab 100 1 = 0 ∧
    List.indexOf 1 AdvancedSortingEngine.lStab <
      List.indexOf 100 AdvancedSortingEngine.lStab ∧
    List.indexOf 100 (AdvancedSortingEngine.timSort AdvancedSortingEngine.cmpStab
        AdvancedSortingEngine.lStab) <
      List.indexOf 1 (AdvancedSortingEngine.timSort AdvancedSortingEngine.cmpStab
        AdvancedSortingEngine.lStab) := by
  refine ⟨by decide, by decide, by decide, ?_⟩
  rw [AdvancedSortingEngine.timSort_cmpStab_eval]
  decide

/-- C3, amended: for a **consistent** comparator (the relation
`cmp a b ≤ 0` total and transitive), `timSort` is stable: every
`cle`-sorted sublist of the input — in particular any chain of
equal-comparing elements in their original relative order — is still a
sublist of the output.  The original claim's `for every comparator` fails
(see the counterexample). -/
theorem c3_timsort_stable_consistent {T : Type} [Inhabited T] {cmp : T → T → ℚ}
    (htot : AdvancedSortingEngine.CmpTotal cmp)
    (htrans : AdvancedSortingEngine.CmpTrans cmp) (l lsub : List T)
    (hsub : lsub.Sublist l)
    (hpair : List.Pairwise (AdvancedSortingEngine.cle cmp) lsub) :
    lsub.Sublist (AdvancedSortingEngine.timSort cmp l) :=
  AdvancedSortingEngine.timSort_stable htot htrans l lsub hsub hpair

/-- C3 witness: the amended theorem at the all-equal comparator on
`[5, 7, 6]` with the equal-comparing chain `[5, 7]`. -/
theorem c3_timsort_stable_consistent_witness :
    ([5, 7] : List ℕ).Sublist
      (AdvancedSortingEngine.timSort (fun _ _ => (0 : ℚ)) [5, 7, 6]) :=
  c3_timsort_stable_consistent (fun _ _ => Or.inl (le_refl 0))
    (fun _ _ _ h _ => h) [5, 7, 6] [5, 7] (by decide)
    (by norm_num [List.pairwise_cons, AdvancedSortingEngine.cle])

/-- C8: the claim says `radixSort` fails or explicitly rejects any input
containing a negative number.  The code has no such guard and its
`number[]` return type has no failure case: `[-1]` is returned unchanged by
the `length <= 1` early copy, and `[-1, -2]` is returned unchanged (and
unsorted!) because `max = -1` makes the pass condition
`Math.floor(max / exp) > 0` false before the first pass — no failure, no
rejection. -/
theorem c8_radix_sort_accepts_negatives :
    AdvancedSortingEngine.radixSort [-1] = [-1] ∧
    AdvancedSortingEngine.radixSort [-1, -2] = [-1, -2] ∧
    ¬ List.Pairwise (fun a b : ℤ => a ≤ b) [-1, -2] := by
  refine ⟨by decide, by decide, by decide⟩

/-- C10: the claim says all four sorts return a newly allocated array (and
leave the input unchanged).  `bucketSort` does not always return at all: on
an input of length ≥ 2 whose elements are all equal, `bucketSize` is `0`,
the bucket index of the minimum is `0/0 = NaN`, and `buckets[NaN].push`
throws a `TypeError` — exhibited on `[5, 5]`.  The neighbouring conjuncts
show the early-copy path (`[5]`) and a normal path (`[5, 6]`) do return a
fresh result as claimed.  (The no-mutation half of the claim holds for all
four routines: each sorts the copy `[...arr]` — in this functional
embedding the input list is a value the routines never rebind.) -/
theorem c10_bucket_sort_throws_on_uniform_input :
    AdvancedSortingEngine.bucketSort [5, 5] 10 =
      Except.error "TypeError: buckets[NaN] is undefined" ∧
    AdvancedSortingEngine.bucketSort [5] 10 = Except.ok [5] ∧
    AdvancedSortingEngine.bucketSort [5, 6] 10 = Except.ok [5, 6] := by
  refine ⟨?_, ?_, ?_⟩
  · norm_num [AdvancedSortingEngine.bucketSort, AdvancedSortingEngine.minOfQ,
      AdvancedSortingEngine.maxOfQ, AdvancedSortingEngine.distributeGrades,
      AdvancedSortingEngine.jsBucketIndex]
  · norm_num [AdvancedSortingEngine.bucketSort]
  · norm_num [AdvancedSortingEngine.bucketSort, AdvancedSortingEngine.minOfQ,
      AdvancedSortingEngine.maxOfQ, AdvancedSortingEngine.distributeGrades,
      AdvancedSortingEngine.jsBucketIndex, AdvancedSortingEngine.bucketPush,
      List.replicate, List.mergeSort]

/-- C6, counterexample: the claim promises that a record that is an exact
string match for the query is **ranked first**.  With two distinct records
`stA`, `stB` carrying the same searchable fields (the source `Student`
interface allows this — e.g. same names with different ids), both are
exact matches for the query `"a b c d"` with similarity `1`, yet the
stable descending sort leaves them in input order `[stA, stB]`: the exact
match `stB` is returned second, not first.  (The similarity formula,
threshold filter and descending order all hold; see the amended
theorem.) -/
theorem c6_second_exact_match_not_ranked_first :
    AdvancedSearchEngine.searchableTextOf AdvancedSearchEngine.stB =
      AdvancedSearchEngine.lowerStr "a b c d" ∧
    AdvancedSearchEngine.scoreOf "a b c d" AdvancedSearchEngine.stB = 1 ∧
    AdvancedSearchEngine.fuzzySearch
        [AdvancedSearchEngine.stA, AdvancedSearchEngine.stB] "a b c d" (7 / 10) =
      [AdvancedSearchEngine.stA, AdvancedSearchEngine.stB] ∧
    AdvancedSearchEngine.stB ≠ AdvancedSearchEngine.stA := by
  refine ⟨by decide, AdvancedSearchEngine.scoreOf_stB_eval, ?_, by decide⟩
  unfold AdvancedSearchEngine.fuzzySearch
  simp only [List.map_cons, List.map_nil]
  rw [AdvancedSearchEngine.scoreOf_stA_eval, AdvancedSearchEngine.scoreOf_stB_eval]
  norm_num [List.filter_cons, List.mergeSort]

/-- C6, amended: `fuzzySearch` assigns each record the similarity
`1 − levenshteinDistance(lowercased query, searchable text) / max(lengths)`,
returns exactly the records with similarity `≥ threshold`, sorted by
descending similarity; whenever `threshold ≤ 1`, every record that is an
exact string match for the query is returned with similarity `1` and every
record ranked before it — in particular the first returned record — also
has similarity `1`.  (The original `ranked first` fails when a second
record ties at similarity `1`; see the counterexample.) -/
theorem c6_fuzzy_search_corrected (students : List AdvancedSearchEngine.Student)
    (query : String) (threshold : ℚ) :
    (∀ st, AdvancedSearchEngine.scoreOf query st =
      1 - (AdvancedSearchEngine.levenshteinDistance
          (AdvancedSearchEngine.lowerStr query)
          (AdvancedSearchEngine.searchableTextOf st) : ℚ) /
        (max (AdvancedSearchEngine.lowerStr query).length
          (AdvancedSearchEngine.searchableTextOf st).length : ℚ)) ∧
    (AdvancedSearchEngine.fuzzySearch students query threshold).Perm
      (students.filter
        (fun st => decide (threshold ≤ AdvancedSearchEngine.scoreOf query st))) ∧
    List.Pairwise
      (fun a b => AdvancedSearchEngine.scoreOf query b ≤
        AdvancedSearchEngine.scoreOf query a)
      (AdvancedSearchEngine.fuzzySearch students query threshold) ∧
    (threshold ≤ 1 →
      ∀ st ∈ students,
        AdvancedSearchEngine.searchableTextOf st =
          AdvancedSearchEngine.lowerStr query →
        st ∈ AdvancedSearchEngine.fuzzySearch students query threshold ∧
        AdvancedSearchEngine.scoreOf query st = 1 ∧
        ∀ hd,
          (AdvancedSearchEngine.fuzzySearch students query threshold).head? =
            some hd →
          AdvancedSearchEngine.scoreOf query hd = 1) := by
  obtain ⟨h1, h2, h3⟩ := AdvancedSearchEngine.fuzzySearch_spec students query threshold
  exact ⟨fun st => rfl, h1, h2, h3⟩

/-- C6 witness: the amended theorem at the one-element corpus `[stC]` with
query `"jo ng j@x 9"` (an exact match for `stC`) and threshold `7/10`:
`stC` is returned with similarity `1`. -/
theorem c6_fuzzy_search_corrected_witness :
    AdvancedSearchEngine.stC ∈ AdvancedSearchEngine.fuzzySearch
      [AdvancedSearchEngine.stC] "jo ng j@x 9" (7 / 10) ∧
    AdvancedSearchEngine.scoreOf "jo ng j@x 9" AdvancedSearchEngine.stC = 1 := by
  obtain ⟨-, -, -, h3⟩ :=
    c6_fuzzy_search_corrected [AdvancedSearchEngine.stC] "jo ng j@x 9" (7 / 10)
  obtain ⟨h1, h2, -⟩ := h3 (by norm_num) AdvancedSearchEngine.stC (by simp) (by decide)
  exact ⟨h1, h2⟩


/-- C5: `kMeansClustering` never completes on a non-empty record
collection: `assignments` is initialized as the sparse
`new Array(points.length)`, `arraysEqual` uses `Array.prototype.every`,
which skips holes and is therefore vacuously `true` against the first
`newAssignments` — so the loop `break`s in iteration `0` with the
assignments still all holes, and `calculateInertia` then evaluates
`euclideanDistance(point, centroids[undefined])`, which throws
`TypeError: Cannot read properties of undefined (reading '0')` at the
first non-empty feature row.  So for every input with at least one
non-empty row — any non-empty `features` argument produces only such
rows — every `k` and every `maxIterations` (the default `100` included),
the function throws, and the claimed guarantees (k centroids returned,
assignment array of record length, non-increasing inertia) never
materialize; in the remaining all-empty-rows corner the function returns,
but still without ever executing an update iteration. -/
theorem c5_kmeans_never_completes (rng : ℕ → ℕ → ℚ) (points : List (List ℚ))
    (k maxIterations : ℕ) (hrow : ∃ p ∈ points, p ≠ []) :
    PredictionEngine.kMeansClustering rng points k maxIterations =
      Except.error "TypeError: Cannot read properties of undefined (reading '0')" := by
  obtain ⟨p, ps, rfl⟩ : ∃ p ps, points = p :: ps := by
    cases points with
    | nil =>
      obtain ⟨q, hq, -⟩ := hrow
      exact absurd hq (List.not_mem_nil q)
    | cons p ps => exact ⟨p, ps, rfl⟩
  show (match PredictionEngine.calculateInertia (p :: ps)
      (PredictionEngine.kmLoop (p :: ps) k maxIterations
        (PredictionEngine.initializeCentroids rng (p :: ps) k)
        (List.replicate (p :: ps).length none)).1
      (PredictionEngine.kmLoop (p :: ps) k maxIterations
        (PredictionEngine.initializeCentroids rng (p :: ps) k)
        (List.replicate (p :: ps).length none)).2 with
    | .error e => Except.error e
    | .ok inertia => Except.ok
        (⟨PredictionEngine.groupClusters k (PredictionEngine.kmLoop (p :: ps) k maxIterations
            (PredictionEngine.initializeCentroids rng (p :: ps) k)
            (List.replicate (p :: ps).length none)).2,
          (PredictionEngine.kmLoop (p :: ps) k maxIterations
            (PredictionEngine.initializeCentroids rng (p :: ps) k)
            (List.replicate (p :: ps).length none)).1,
          (PredictionEngine.kmLoop (p :: ps) k maxIterations
            (PredictionEngine.initializeCentroids rng (p :: ps) k)
            (List.replicate (p :: ps).length none)).2, inertia⟩ : PredictionEngine.ClusterResult)) =
    Except.error "TypeError: Cannot read properties of undefined (reading '0')"
  rw [PredictionEngine.kmLoop_stuck]
  show (match PredictionEngine.calculateInertia (p :: ps) (PredictionEngine.initializeCentroids rng (p :: ps) k)
      (List.replicate (p :: ps).length none) with
    | .error e => Except.error e
    | .ok inertia => Except.ok
        (⟨PredictionEngine.groupClusters k (List.replicate (p :: ps).length none),
          PredictionEngine.initializeCentroids rng (p :: ps) k,
          List.replicate (p :: ps).length none, inertia⟩ : PredictionEngine.ClusterResult)) =
    Except.error "TypeError: Cannot read properties of undefined (reading '0')"
  have hin : PredictionEngine.calculateInertia (p :: ps) (PredictionEngine.initializeCentroids rng (p :: ps) k)
      (List.replicate (p :: ps).length none) =
      Except.error "TypeError: Cannot read properties of undefined (reading '0')" := by
    unfold PredictionEngine.calculateInertia
    exact PredictionEngine.inertiaGo_hole_error _ _ (p :: ps) 0 0 hrow
  rw [hin]

/-- C5 witness: the theorem at the concrete two-point one-cluster input
`[[0], [1]]`, `k = 1`, the default `maxIterations = 100`. -/
theorem c5_kmeans_never_completes_witness :
    PredictionEngine.kMeansClustering (fun _ _ => 1 / 2) [[0], [1]] 1 100 =
      Except.error "TypeError: Cannot read properties of undefined (reading '0')" :=
  c5_kmeans_never_completes (fun _ _ => 1 / 2) [[0], [1]] 1 100
    ⟨[0], by simp, by simp⟩


end Nexus
